import Mathlib

/-!
Verification of the register-allocation back-end of the Tiger compiler
(`src/tiger/src`): the x86-64 frame (`frame/x86_64.rs`), the liveness
analysis and interference-graph construction (`liveness.rs`, `flow.rs`),
the spill rewriter (`reg_alloc.rs`) and the iterated-coalescing colorer
(`color.rs`).  Temporaries (`Temp { num: u32 }`) are embedded as natural
numbers; the sets the Rust code keeps in `HashSet`/`BTreeSet` are embedded
as `Finset ℕ` where only membership matters and as strictly sorted lists
where iteration order matters.
-/

namespace Tiger

/-! ## Temporaries and the x86-64 register file (`frame/x86_64.rs`)

`pub const RBP: Temp = Temp { num: 1 };` … `pub const R15: Temp = Temp { num: 16 };` -/

def RBP : ℕ := 1
def RSP : ℕ := 2
def RAX : ℕ := 3
def RBX : ℕ := 4
def RCX : ℕ := 5
def RDX : ℕ := 6
def RSI : ℕ := 7
def RDI : ℕ := 8
def R8 : ℕ := 9
def R9 : ℕ := 10
def R10 : ℕ := 11
def R11 : ℕ := 12
def R12 : ℕ := 13
def R13 : ℕ := 14
def R14 : ℕ := 15
def R15 : ℕ := 16

/-- `X86_64::arg_registers()`: `vec![RDI, RSI, RDX, RCX, R8, R9]`. -/
def argRegisters : List ℕ := [RDI, RSI, RDX, RCX, R8, R9]

/-- `X86_64::callee_saved_registers()`: `vec![RBX, RBP, R12, R13, R14, R15]`. -/
def calleeSavedRegisters : List ℕ := [RBX, RBP, R12, R13, R14, R15]

/-- `X86_64::special_registers()`: `vec![RAX, RSP]`. -/
def specialRegisters : List ℕ := [RAX, RSP]

/-- `X86_64::caller_saved_registers()`: `vec![R10, R11]`. -/
def callerSavedRegisters : List ℕ := [R10, R11]

/-- `X86_64::return_value()`: `RAX`. -/
def returnValue : ℕ := RAX

/-- `<X86_64 as Frame>::registers()`: argument registers, then the return
value register, then the callee-saved, special and caller-saved registers,
concatenated in this order (`Vec` semantics: duplicates are kept). -/
def registers : List ℕ :=
  argRegisters ++ [returnValue] ++ calleeSavedRegisters
    ++ specialRegisters ++ callerSavedRegisters

/-- `<X86_64 as Frame>::register_count()`:
`Self::registers().len() - [RSP, RBP].len()`. -/
def registerCount : ℕ := registers.length - ([RSP, RBP] : List ℕ).length

/-- Keys of `<X86_64 as Frame>::temp_map()`: the sixteen machine registers. -/
def precolored : Finset ℕ :=
  {RBP, RSP, RAX, RBX, RDI, RSI, RDX, RCX, R8, R9, R10, R11, R12, R13, R14, R15}

/-! ## Frame layout (`frame/x86_64.rs`)

`alloc_local` decrements the frame's `pointer` by `POINTER_SIZE = 8` per
escaping local; `proc_entry_exit3` computes the prologue's stack size from
the final `pointer`. -/

/-- Stack-size computation of `proc_entry_exit3`:
`let mut stack_size = -self.pointer; if stack_size % 16 != 0 \x7b
stack_size = (stack_size & !0xF) + 0x10; \x7d`.
For the non-negative `stack_size = -pointer` the bit operation
`stack_size & !0xF` clears the four low bits, i.e. subtracts
`stack_size % 16`. -/
def stackSize (pointer : Int) : Int :=
  let s : Int := -pointer
  if s % 16 ≠ 0 then (s - s % 16) + 16 else s

/-- `Subroutine` (from `asm.rs`) as produced by `proc_entry_exit3`: the
textual prologue and epilogue around the instruction body.  The body is
irrelevant to the emitted strings and is omitted. -/
structure Subroutine where
  prolog : String
  epilog : String
deriving DecidableEq

/-- `proc_entry_exit3` of `frame/x86_64.rs`: emits
`name: push rbp; mov rbp, rsp; sub rsp, stack_size` and `leave; ret`. -/
def procEntryExit3 (name : String) (pointer : Int) : Subroutine :=
  { prolog := name ++ ":\n    push rbp\n    mov rbp, rsp\n    sub rsp, "
      ++ toString (stackSize pointer)
    epilog := "leave\n    ret" }

end Tiger

namespace Tiger

/-! ## Claim C3: the value of `register_count()` -/

/-- C3 (counterexample): the claim states `register_count() = 14`
(the 16 machine registers minus `rsp` and `rbp`).  The code returns 15,
because `registers()` lists `rax` twice (once as the pushed
`return_value()` and once inside `special_registers()`), so its length is
17 and `register_count() = 17 - 2 = 15`. -/
theorem c3_register_count_not_14 : registerCount ≠ 14 := by decide

/-- C3 (amended): `register_count()` equals the length of the `registers()`
vector minus 2, but that vector contains `rax` twice: it has 17 entries for
a register file of 16 distinct registers, so `register_count() = 15`,
not `16 - 2 = 14`. -/
theorem c3_register_count_value :
    registerCount = registers.length - 2 ∧
      registers.length = 17 ∧
      registers.dedup.length = 16 ∧
      registerCount = 15 := by decide

/-! ## Claim C6: prologue/epilogue and the stack size -/

/-- C6 (counterexample): the claim says the `sub rsp, N` amount is a
*positive* multiple of 16 for every frame.  A frame that never allocated
an escaping local still has `pointer = 0`, and `proc_entry_exit3` then
emits `sub rsp, 0`: the stack size is zero, not positive. -/
theorem c6_stack_size_zero :
    stackSize 0 = 0 ∧ ¬ 0 < stackSize 0 ∧
      (procEntryExit3 "main" 0).prolog =
        "main:\n    push rbp\n    mov rbp, rsp\n    sub rsp, 0" := by
  constructor
  · rfl
  · exact ⟨by decide, rfl⟩

/-- C6 (amended): for every frame (`pointer ≤ 0`, since `alloc_local` only
ever decrements `pointer`), `proc_entry_exit3` emits the prologue
`push rbp; mov rbp, rsp; sub rsp, N` and the epilogue `leave; ret`, where
`N` is `-pointer` rounded up to a multiple of 16: `N` is a *non-negative*
multiple of 16 in the interval `[-pointer, -pointer + 16)`, and `N` is
positive only when at least one escaping local or formal was allocated
(`pointer < 0`); for `pointer = 0` the code emits `sub rsp, 0`. -/
theorem c6_prologue_epilogue (pointer : Int) (h : pointer ≤ 0) :
    (procEntryExit3 "f" pointer).prolog =
        "f:\n    push rbp\n    mov rbp, rsp\n    sub rsp, "
          ++ toString (stackSize pointer) ∧
      (procEntryExit3 "f" pointer).epilog = "leave\n    ret" ∧
      16 ∣ stackSize pointer ∧
      -pointer ≤ stackSize pointer ∧
      stackSize pointer < -pointer + 16 ∧
      (pointer < 0 → 0 < stackSize pointer) := by
  refine ⟨rfl, rfl, ?_, ?_, ?_, ?_⟩
  · unfold stackSize
    by_cases h16 : -pointer % 16 = 0
    · simpa [h16] using Int.dvd_of_emod_eq_zero h16
    · simp only [h16, if_pos, ne_eq, not_false_iff]
      exact (Int.dvd_sub_of_emod_eq rfl).add (dvd_refl 16)
  · unfold stackSize
    have := Int.emod_nonneg (-pointer) (by norm_num : (16:Int) ≠ 0)
    by_cases h16 : -pointer % 16 = 0 <;> simp [h16] <;> omega
  · unfold stackSize
    have h1 := Int.emod_nonneg (-pointer) (by norm_num : (16:Int) ≠ 0)
    have h2 := Int.emod_lt_of_pos (-pointer) (by norm_num : (0:Int) < 16)
    by_cases h16 : -pointer % 16 = 0 <;> simp [h16] <;> omega
  · intro hlt
    unfold stackSize
    have h1 := Int.emod_nonneg (-pointer) (by norm_num : (16:Int) ≠ 0)
    by_cases h16 : -pointer % 16 = 0 <;> simp [h16] <;> omega

/-- C6 witness: a frame with one escaping local (`pointer = -8`) gets
stack size 16. -/
theorem c6_prologue_epilogue_witness :
    (-8 : Int) ≤ 0 ∧
      (16 ∣ stackSize (-8) ∧ -(-8 : Int) ≤ stackSize (-8) ∧
        ((-8 : Int) < 0 → 0 < stackSize (-8))) :=
  ⟨by decide,
    (c6_prologue_epilogue (-8) (by decide)).2.2.1,
    (c6_prologue_epilogue (-8) (by decide)).2.2.2.1,
    (c6_prologue_epilogue (-8) (by decide)).2.2.2.2.2⟩

/-! ## Flow graph and liveness (`flow.rs`, `liveness.rs`)

A `flow::Node` carries `defines: HashSet<Temp>`, `uses: HashSet<Temp>`,
`is_move: bool`; graph edges are the successor indices.  The maps
`live_in`/`live_out` of `interference_graph` are keyed by the node index
`0..n`; an absent key reads as the empty set (`unwrap_or_default`,
`or_insert_with(HashSet::new)`), so they are embedded as lists of
`Finset ℕ` indexed by node, read through a default-`∅` getter. -/

structure LiveNode where
  defines : Finset ℕ
  uses : Finset ℕ
  succs : List ℕ
  is_move : Bool
deriving DecidableEq

instance : Inhabited LiveNode := ⟨⟨∅, ∅, [], false⟩⟩

/-- Read entry `i` of a liveness map, defaulting to the empty set. -/
def getS (l : List (Finset ℕ)) (i : ℕ) : Finset ℕ := l.getD i ∅

/-- Write entry `i` of a liveness map (no-op out of range, as for a list
that represents a map with keys `0..n`). -/
def setS : List (Finset ℕ) → ℕ → Finset ℕ → List (Finset ℕ)
  | [], _, _ => []
  | _ :: xs, 0, v => v :: xs
  | x :: xs, n + 1, v => x :: setS xs n v

/-- The liveness state of `interference_graph`: the `live_in` and
`live_out` maps. -/
structure LState where
  li : List (Finset ℕ)
  lo : List (Finset ℕ)
deriving DecidableEq

/-- One iteration of the body of the `for (index, node)` loop inside
`interference_graph`: first `live_in[index]` is overwritten with
`uses[index] ∪ (live_out[index] \ defines[index])`, then
`live_out[index]` is overwritten with the union of the (just updated)
`live_in` sets of the successors. -/
def updateAt (nodes : List LiveNode) (i : ℕ) (st : LState) : LState :=
  let nd := nodes.getD i default
  let newIn := nd.uses ∪ (getS st.lo i \ nd.defines)
  let li' := setS st.li i newIn
  let newOut := nd.succs.foldl (fun acc s => acc ∪ getS li' s) ∅
  ⟨li', setS st.lo i newOut⟩

/-- Process the node indices of `l` in order, as the inner `for` loop of
`interference_graph` does. -/
def sweepFrom (nodes : List LiveNode) (l : List ℕ) (st : LState) : LState :=
  l.foldl (fun s i => updateAt nodes i s) st

/-- One full sweep of the dataflow loop over all nodes.  The `loop` in
`interference_graph` terminates exactly when a sweep leaves both maps
unchanged (`new_live_in == live_in && new_live_out == live_out`). -/
def sweep (nodes : List LiveNode) (st : LState) : LState :=
  sweepFrom nodes (List.range nodes.length) st

/-- The initial liveness state: both maps semantically empty. -/
def initLState (n : ℕ) : LState :=
  ⟨List.replicate n ∅, List.replicate n ∅⟩

/-- The union the code accumulates with `set.extend(in_set)` over the
successors of a node. -/
def unionOver (f : ℕ → Finset ℕ) (l : List ℕ) : Finset ℕ :=
  l.foldl (fun acc s => acc ∪ f s) ∅

/-! Helper lemmas about `setS`/`getS`. -/

theorem length_setS (l : List (Finset ℕ)) (i : ℕ) (v : Finset ℕ) :
    (setS l i v).length = l.length := by
  induction l generalizing i with
  | nil => rfl
  | cons x xs ih =>
    cases i with
    | zero => rfl
    | succ n => simpa [setS] using ih n

theorem getS_setS_self (l : List (Finset ℕ)) (i : ℕ) (v : Finset ℕ)
    (h : i < l.length) : getS (setS l i v) i = v := by
  induction l generalizing i with
  | nil => simp at h
  | cons x xs ih =>
    cases i with
    | zero => rfl
    | succ n =>
      simp only [List.length_cons, Nat.succ_lt_succ_iff] at h
      simpa [setS, getS, List.getD] using ih n h

theorem getS_setS_ne (l : List (Finset ℕ)) (i j : ℕ) (v : Finset ℕ)
    (h : i ≠ j) : getS (setS l i v) j = getS l j := by
  induction l generalizing i j with
  | nil => cases i <;> rfl
  | cons x xs ih =>
    cases i with
    | zero =>
      cases j with
      | zero => exact absurd rfl h
      | succ m => rfl
    | succ n =>
      cases j with
      | zero => rfl
      | succ m =>
        simpa [setS, getS, List.getD] using ih n m (fun hnm => h (by omega))

theorem eq_of_getS_eq (l₁ l₂ : List (Finset ℕ))
    (hlen : l₁.length = l₂.length) (h : ∀ j, getS l₁ j = getS l₂ j) :
    l₁ = l₂ := by
  induction l₁ generalizing l₂ with
  | nil => cases l₂ with
    | nil => rfl
    | cons y ys => simp at hlen
  | cons x xs ih =>
    cases l₂ with
    | nil => simp at hlen
    | cons y ys =>
      have h0 := h 0
      simp only [getS, List.getD] at h0
      have hrest : ∀ j, getS xs j = getS ys j := fun j => h (j + 1)
      have := ih ys (by simpa using hlen) hrest
      simp_all

/-! The step for index `i` only writes the entries at key `i`, so an index
not occurring in `l` keeps its entries across `sweepFrom`. -/

theorem sweepFrom_frame (nodes : List LiveNode) (l : List ℕ) (st : LState)
    (j : ℕ) (hj : j ∉ l) :
    getS (sweepFrom nodes l st).li j = getS st.li j ∧
      getS (sweepFrom nodes l st).lo j = getS st.lo j := by
  induction l generalizing st with
  | nil => exact ⟨rfl, rfl⟩
  | cons i rest ih =>
    have hji : i ≠ j := fun h => hj (h ▸ List.mem_cons_self i rest)
    have hjr : j ∉ rest := fun h => hj (List.mem_cons_of_mem i h)
    have hstep := ih (updateAt nodes i st) hjr
    refine ⟨?_, ?_⟩
    · rw [show sweepFrom nodes (i :: rest) st
          = sweepFrom nodes rest (updateAt nodes i st) from rfl, hstep.1]
      simp [updateAt, getS_setS_ne _ _ _ _ hji]
    · rw [show sweepFrom nodes (i :: rest) st
          = sweepFrom nodes rest (updateAt nodes i st) from rfl, hstep.2]
      simp [updateAt, getS_setS_ne _ _ _ _ hji]

/-- At a fixed point of a sweep over distinct indices, every single-index
update already leaves the state unchanged. -/
theorem updateAt_eq_of_sweepFrom_fix (nodes : List LiveNode) :
    ∀ (l : List ℕ) (st : LState), l.Nodup → sweepFrom nodes l st = st →
      ∀ i ∈ l, updateAt nodes i st = st := by
  intro l
  induction l with
  | nil => intro st _ _ i hi; simp at hi
  | cons i rest ih =>
    intro st hnd hfix j hj
    have hi_rest : i ∉ rest := (List.nodup_cons.mp hnd).1
    have hrest_nd : rest.Nodup := (List.nodup_cons.mp hnd).2
    have hfix' : sweepFrom nodes rest (updateAt nodes i st) = st := hfix
    -- the entries of `updateAt nodes i st` at key `i` survive the rest of
    -- the sweep, and the sweep ends at `st`, so the update wrote back the
    -- old values
    have hframe := sweepFrom_frame nodes rest (updateAt nodes i st) i hi_rest
    have hli_i : getS (updateAt nodes i st).li i = getS st.li i := by
      rw [← hframe.1, hfix']
    have hlo_i : getS (updateAt nodes i st).lo i = getS st.lo i := by
      rw [← hframe.2, hfix']
    have hupd : updateAt nodes i st = st := by
      have hli : (updateAt nodes i st).li = st.li := by
        apply eq_of_getS_eq
        · simp [updateAt, length_setS]
        · intro j'
          by_cases hij : i = j'
          · subst hij; exact hli_i
          · simp only [updateAt]
            exact getS_setS_ne _ _ _ _ hij
      have hlo : (updateAt nodes i st).lo = st.lo := by
        apply eq_of_getS_eq
        · simp [updateAt, length_setS]
        · intro j'
          by_cases hij : i = j'
          · subst hij; exact hlo_i
          · simp only [updateAt]
            exact getS_setS_ne _ _ _ _ hij
      cases hst : updateAt nodes i st
      simp_all
    rcases List.mem_cons.mp hj with hji | hjr
    · subst hji; exact hupd
    · exact ih st hrest_nd (by rw [hupd] at hfix'; exact hfix') j hjr

/-! ## Claim C4: the dataflow equations at loop exit -/

/-- C4: when the backward dataflow loop of `interference_graph`
terminates (a full sweep changes neither `live_in` nor `live_out`), every
node `n` satisfies the fixed-point equations
`live_in[n] = uses[n] ∪ (live_out[n] \ defines[n])` and
`live_out[n] = ⋃ live_in[s]` over the successors `s` of `n`. -/
theorem c4_liveness_fixpoint (nodes : List LiveNode) (st : LState)
    (hli : st.li.length = nodes.length) (hlo : st.lo.length = nodes.length)
    (hfix : sweep nodes st = st) :
    ∀ i < nodes.length,
      getS st.li i =
          (nodes.getD i default).uses ∪
            (getS st.lo i \ (nodes.getD i default).defines) ∧
        getS st.lo i = unionOver (getS st.li) (nodes.getD i default).succs := by
  intro i hi
  have hmem : i ∈ List.range nodes.length := List.mem_range.mpr hi
  have hupd := updateAt_eq_of_sweepFrom_fix nodes (List.range nodes.length) st
    (List.nodup_range nodes.length) hfix i hmem
  have hili : i < st.li.length := by omega
  have hilo : i < st.lo.length := by omega
  -- the li equation
  have hli_eq : getS st.li i =
      (nodes.getD i default).uses ∪
        (getS st.lo i \ (nodes.getD i default).defines) := by
    have h1 := congrArg LState.li hupd
    have h2 := congrArg (fun l => getS l i) h1
    simpa [updateAt, getS_setS_self _ _ _ hili] using h2.symm
  refine ⟨hli_eq, ?_⟩
  -- the update wrote `li` back unchanged, so the inner union already reads
  -- the final `live_in`
  have hli_list : setS st.li i
      ((nodes.getD i default).uses ∪
        (getS st.lo i \ (nodes.getD i default).defines)) = st.li := by
    apply eq_of_getS_eq _ _ (length_setS _ _ _)
    intro j
    by_cases hij : i = j
    · subst hij; rw [getS_setS_self _ _ _ hili, hli_eq]
    · exact getS_setS_ne _ _ _ _ hij
  have h1 := congrArg LState.lo hupd
  have h2 := congrArg (fun l => getS l i) h1
  simp only [updateAt] at h2
  rw [hli_list] at h2
  rw [getS_setS_self _ _ _ hilo] at h2
  rw [← h2]
  rfl

/-- C4 witness: a one-node graph (`uses = \x7b5\x7d`, `defines = \x7b7\x7d`,
no successor) with `live_in = \x7b5\x7d`, `live_out = ∅` is a fixed point
of the sweep, and the equations hold there. -/
theorem c4_liveness_fixpoint_witness :
    (sweep [⟨{7}, {5}, [], false⟩] ⟨[{5}], [∅]⟩ = ⟨[{5}], [∅]⟩) ∧
      getS [({5} : Finset ℕ)] 0 = {5} ∪ (getS [∅] 0 \ {7}) ∧
      getS [(∅ : Finset ℕ)] 0 = unionOver (getS [{5}]) [] :=
  ⟨by decide,
    ((c4_liveness_fixpoint [⟨{7}, {5}, [], false⟩] ⟨[{5}], [∅]⟩
      (by decide) (by decide) (by decide) 0 (by decide)).1),
    ((c4_liveness_fixpoint [⟨{7}, {5}, [], false⟩] ⟨[{5}], [∅]⟩
      (by decide) (by decide) (by decide) 0 (by decide)).2)⟩

/-! ## Claim C1: the interference edges built by `interference_graph`

After the dataflow loop, the code runs, for every node `index` and every
`define ∈ defines[index]`, `interference_graph.link(define_node, temp_node)`
for every `temp ∈ live_out[index]` — with no exception for moves.  The
linked pairs of temporaries are collected here as a set of ordered pairs
`(define, temp)`. -/

/-- The set of `(define, temp)` pairs linked by the edge-building loop of
`interference_graph`, given the converged `live_out` map. -/
def igEdges (nodes : List LiveNode) (lo : List (Finset ℕ)) :
    Finset (ℕ × ℕ) :=
  (List.range nodes.length).foldl
    (fun acc i => acc ∪ (nodes.getD i default).defines ×ˢ getS lo i) ∅

/-- The edge set described by the claim (and the spec): as `igEdges`, but
for a `Move` node whose sole source is `s` the edges `d — s` are skipped. -/
def igEdgesClaim (nodes : List LiveNode) (lo : List (Finset ℕ)) :
    Finset (ℕ × ℕ) :=
  (List.range nodes.length).foldl
    (fun acc i =>
      let nd := nodes.getD i default
      let out := if nd.is_move ∧ nd.uses.card = 1
        then getS lo i \ nd.uses else getS lo i
      acc ∪ nd.defines ×ˢ out) ∅

theorem mem_foldl_union {α : Type} [DecidableEq α] (f : ℕ → Finset α)
    (l : List ℕ) (acc : Finset α) (p : α) :
    p ∈ l.foldl (fun acc i => acc ∪ f i) acc ↔
      p ∈ acc ∨ ∃ i ∈ l, p ∈ f i := by
  induction l generalizing acc with
  | nil => simp
  | cons i rest ih =>
    simp only [List.foldl, ih, Finset.mem_union, List.mem_cons]
    constructor
    · rintro ((h | h) | ⟨j, hj, hp⟩)
      · exact Or.inl h
      · exact Or.inr ⟨i, Or.inl rfl, h⟩
      · exact Or.inr ⟨j, Or.inr hj, hp⟩
    · rintro (h | ⟨j, (rfl | hj), hp⟩)
      · exact Or.inl (Or.inl h)
      · exact Or.inl (Or.inr hp)
      · exact Or.inr ⟨j, hj, hp⟩

/-- C1 (counterexample): flow graph `0: mov t10 ← t20 → 1`,
`1: use t10, t20`.  The liveness loop stabilizes after two sweeps at
`live_out[0] = \x7b10, 20\x7d`; node 0 is a `Move` with sole source `20`,
yet the code creates the edge `10 — 20`, which the claim says is skipped. -/
theorem c1_move_edge_not_skipped :
    (sweep [⟨{10}, {20}, [1], true⟩, ⟨∅, {10, 20}, [], false⟩]
        (sweep [⟨{10}, {20}, [1], true⟩, ⟨∅, {10, 20}, [], false⟩]
          (sweep [⟨{10}, {20}, [1], true⟩, ⟨∅, {10, 20}, [], false⟩]
            (initLState 2)))
      = sweep [⟨{10}, {20}, [1], true⟩, ⟨∅, {10, 20}, [], false⟩]
          (sweep [⟨{10}, {20}, [1], true⟩, ⟨∅, {10, 20}, [], false⟩]
            (initLState 2))) ∧
    (10, 20) ∈ igEdges [⟨{10}, {20}, [1], true⟩, ⟨∅, {10, 20}, [], false⟩]
        (sweep [⟨{10}, {20}, [1], true⟩, ⟨∅, {10, 20}, [], false⟩]
          (sweep [⟨{10}, {20}, [1], true⟩, ⟨∅, {10, 20}, [], false⟩]
            (initLState 2))).lo ∧
    (10, 20) ∉ igEdgesClaim [⟨{10}, {20}, [1], true⟩, ⟨∅, {10, 20}, [], false⟩]
        (sweep [⟨{10}, {20}, [1], true⟩, ⟨∅, {10, 20}, [], false⟩]
          (sweep [⟨{10}, {20}, [1], true⟩, ⟨∅, {10, 20}, [], false⟩]
            (initLState 2))).lo := by
  refine ⟨by decide, by decide, by decide⟩

/-- C1 (amended): the edge-building loop of `interference_graph` links
`d — t` for *every* node `n`, `d ∈ defines[n]` and `t ∈ live_out[n]` —
including for `Move` nodes: the move-source exception described by the
claim is not implemented — and creates no other edge. -/
theorem c1_interference_edges (nodes : List LiveNode)
    (lo : List (Finset ℕ)) (d t : ℕ) :
    (d, t) ∈ igEdges nodes lo ↔
      ∃ i < nodes.length,
        d ∈ (nodes.getD i default).defines ∧ t ∈ getS lo i := by
  unfold igEdges
  rw [mem_foldl_union]
  simp only [Finset.not_mem_empty, false_or, List.mem_range,
    Finset.mem_product]

/-! ## Claim C10: which `Move` nodes seed `worklist_moves`/`move_list`

`interference_graph` runs, for each node: `if node.is_move \x7b if let
Some(define) = node.defines.iter().next() \x7b if let Some(use_) =
node.uses.iter().next() \x7b insert … \x7d \x7d \x7d`: a pair is produced
only when the node is a move and both operand sets are non-empty.  The
unspecified `HashSet::iter().next()` element choice is embedded as the
minimum. -/

/-- The pair `(define, use)` a node contributes, if any. -/
def moveContrib (n : LiveNode) : Option (ℕ × ℕ) :=
  if n.is_move then
    if hd : n.defines.Nonempty then
      if hu : n.uses.Nonempty then
        some (n.defines.min' hd, n.uses.min' hu)
      else none
    else none
  else none

/-- The `worklist_moves` set accumulated by `interference_graph`. -/
def worklistMovesOf (nodes : List LiveNode) : Finset (ℕ × ℕ) :=
  nodes.foldr
    (fun n acc => match moveContrib n with
      | some p => insert p acc
      | none => acc) ∅

/-- The `move_list` entry of temporary `t`: the code inserts the node's
pair for every `temp` in `defines ∪ uses` of the contributing move. -/
def moveListOf (nodes : List LiveNode) (t : ℕ) : Finset (ℕ × ℕ) :=
  nodes.foldr
    (fun n acc => match moveContrib n with
      | some p => if t ∈ n.defines ∪ n.uses then insert p acc else acc
      | none => acc) ∅

/-- C10: a `Move` node contributes a pair to `worklist_moves` (and to the
`move_list` of its operands) exactly when both its `defines` and its
`uses` sets are non-empty; the pair consists of one define and one use; a
move with an empty operand set (e.g. a move of a constant) contributes
nothing. -/
theorem c10_move_contribution (nodes : List LiveNode) (n : LiveNode)
    (p : ℕ × ℕ) :
    ((moveContrib n).isSome ↔
        n.is_move = true ∧ n.defines.Nonempty ∧ n.uses.Nonempty) ∧
      (moveContrib n = some p → p.1 ∈ n.defines ∧ p.2 ∈ n.uses) ∧
      (p ∈ worklistMovesOf nodes ↔ ∃ m ∈ nodes, moveContrib m = some p) ∧
      (∀ t, p ∈ moveListOf nodes t ↔
        ∃ m ∈ nodes, moveContrib m = some p ∧ t ∈ m.defines ∪ m.uses) := by
  refine ⟨?_, ?_, ?_, ?_⟩
  · unfold moveContrib
    by_cases hm : n.is_move <;> by_cases hd : n.defines.Nonempty <;>
      by_cases hu : n.uses.Nonempty <;> simp [hm, hd, hu]
  · intro hp
    unfold moveContrib at hp
    by_cases hm : n.is_move
    · simp only [hm, if_true] at hp
      by_cases hd : n.defines.Nonempty
      · by_cases hu : n.uses.Nonempty
        · simp only [hd, hu, dif_pos] at hp
          cases hp
          exact ⟨n.defines.min'_mem hd, n.uses.min'_mem hu⟩
        · simp [hd, hu] at hp
      · simp [hd] at hp
    · simp [hm] at hp
  · induction nodes with
    | nil => simp [worklistMovesOf]
    | cons m rest ih =>
      unfold worklistMovesOf at ih ⊢
      cases hc : moveContrib m with
      | none =>
        simp only [List.foldr, hc, List.mem_cons, ih]
        constructor
        · rintro ⟨q, hq, hqp⟩; exact ⟨q, Or.inr hq, hqp⟩
        · rintro ⟨q, (rfl | hq), hqp⟩
          · rw [hc] at hqp; cases hqp
          · exact ⟨q, hq, hqp⟩
      | some q =>
        simp only [List.foldr, hc, Finset.mem_insert, List.mem_cons, ih]
        constructor
        · rintro (rfl | ⟨r, hr, hrp⟩)
          · exact ⟨m, Or.inl rfl, hc⟩
          · exact ⟨r, Or.inr hr, hrp⟩
        · rintro ⟨r, (rfl | hr), hrp⟩
          · rw [hc] at hrp; cases hrp; exact Or.inl rfl
          · exact Or.inr ⟨r, hr, hrp⟩
  · intro t
    induction nodes with
    | nil => simp [moveListOf]
    | cons m rest ih =>
      unfold moveListOf at ih ⊢
      cases hc : moveContrib m with
      | none =>
        simp only [List.foldr, hc, List.mem_cons, ih]
        constructor
        · rintro ⟨q, hq, hqp, hqt⟩; exact ⟨q, Or.inr hq, hqp, hqt⟩
        · rintro ⟨q, (rfl | hq), hqp, hqt⟩
          · rw [hc] at hqp; cases hqp
          · exact ⟨q, hq, hqp, hqt⟩
      | some q =>
        by_cases ht : t ∈ m.defines ∪ m.uses
        · simp only [List.foldr, hc, ht, if_true, Finset.mem_insert,
            List.mem_cons, ih]
          constructor
          · rintro (rfl | ⟨r, hr, hrp, hrt⟩)
            · exact ⟨m, Or.inl rfl, hc, ht⟩
            · exact ⟨r, Or.inr hr, hrp, hrt⟩
          · rintro ⟨r, (rfl | hr), hrp, hrt⟩
            · rw [hc] at hrp; cases hrp; exact Or.inl rfl
            · exact Or.inr ⟨r, hr, hrp, hrt⟩
        · simp only [List.foldr, hc, ht, if_false, List.mem_cons, ih]
          constructor
          · rintro ⟨r, hr, hrp, hrt⟩; exact ⟨r, Or.inr hr, hrp, hrt⟩
          · rintro ⟨r, (rfl | hr), hrp, hrt⟩
            · rw [hc] at hrp; cases hrp; exact absurd hrt ht
            · exact ⟨r, hr, hrp, hrt⟩

/-- C10 witness: the move `mov t3 ← t4` contributes exactly `(3, 4)`; a
move of a constant (`uses = ∅`) contributes nothing. -/
theorem c10_move_contribution_witness :
    ((3, 4) ∈ worklistMovesOf [⟨{3}, {4}, [], true⟩, ⟨{3}, ∅, [], true⟩]) ∧
      moveContrib (⟨{3}, ∅, [], true⟩ : LiveNode) = none :=
  ⟨((c10_move_contribution [⟨{3}, {4}, [], true⟩, ⟨{3}, ∅, [], true⟩]
        (⟨{3}, {4}, [], true⟩ : LiveNode) (3, 4)).2.2.1).mpr
      ⟨⟨{3}, {4}, [], true⟩, by decide, by decide⟩,
    by decide⟩

/-! ## Instructions (`asm.rs`)

`Instruction` has the three shapes `Label`, `Move` and `Operation`, with
`destination`/`source` operand vectors of temporaries.  `jump` labels are
numbers here. -/

inductive Instr where
  | label (assembly : String) (lab : ℕ)
  | move (assembly : String) (destination source : List ℕ)
  | oper (assembly : String) (destination source : List ℕ)
      (jump : Option (List ℕ))
deriving DecidableEq

namespace Instr

/-- Whether the instruction is an `Instruction::Label`. -/
def isLab : Instr → Bool
  | label _ _ => true
  | _ => false

/-- The destination operand vector (`Label` has none). -/
def dests : Instr → List ℕ
  | label _ _ => []
  | move _ d _ => d
  | oper _ d _ _ => d

/-- The source operand vector (`Label` has none). -/
def srcs : Instr → List ℕ
  | label _ _ => []
  | move _ _ s => s
  | oper _ _ s _ => s

end Instr

/-! ## Claim C7: `proc_entry_exit2` -/

/-- `destination.push(RBP); destination.push(RSP)` on a non-label
instruction. -/
def pushDest : Instr → Instr
  | Instr.label a l => Instr.label a l
  | Instr.move a d s => Instr.move a (d ++ [RBP, RSP]) s
  | Instr.oper a d s j => Instr.oper a (d ++ [RBP, RSP]) s j

/-- `source.push(RBP); source.push(RSP)` on a non-label instruction. -/
def pushSrc : Instr → Instr
  | Instr.label a l => Instr.label a l
  | Instr.move a d s => Instr.move a d (s ++ [RBP, RSP])
  | Instr.oper a d s j => Instr.oper a d (s ++ [RBP, RSP]) j

/-- The first `for` loop of `proc_entry_exit2`: walk forward, skip labels,
extend the destination vector of the first non-label instruction, stop. -/
def pushDestFirst : List Instr → List Instr
  | [] => []
  | i :: rest =>
    if i.isLab then i :: pushDestFirst rest else pushDest i :: rest

/-- Helper for the second loop: modify the source vector of the first
non-label instruction of a (reversed) list. -/
def pushSrcFirst : List Instr → List Instr
  | [] => []
  | i :: rest =>
    if i.isLab then i :: pushSrcFirst rest else pushSrc i :: rest

/-- The second `for` loop of `proc_entry_exit2`: walk backwards, skip
labels, extend the source vector of the last non-label instruction. -/
def pushSrcLast (l : List Instr) : List Instr :=
  (pushSrcFirst l.reverse).reverse

/-- The sink operation appended by `proc_entry_exit2`: empty assembly,
empty destination, `source = callee_saved_registers ++ special_registers`,
`jump = Some(vec![])`. -/
def sinkInstr : Instr :=
  Instr.oper "" [] (calleeSavedRegisters ++ specialRegisters) (some [])

/-- `proc_entry_exit2` of `frame/x86_64.rs`: the sink is appended first,
then the two operand-push loops run over the extended list. -/
def procEntryExit2 (instrs : List Instr) : List Instr :=
  pushSrcLast (pushDestFirst (instrs ++ [sinkInstr]))

/-- The behaviour described by the claim: the operand pushes hit the first
non-label and last non-label instruction of the *original* list, and the
sink is appended unchanged afterwards. -/
def procEntryExit2Claim (instrs : List Instr) : List Instr :=
  pushSrcLast (pushDestFirst instrs) ++ [sinkInstr]

theorem pushDestFirst_labels_append (pre : List Instr) (x : Instr)
    (post : List Instr) (hpre : ∀ y ∈ pre, y.isLab = true)
    (hx : x.isLab = false) :
    pushDestFirst (pre ++ x :: post) = pre ++ pushDest x :: post := by
  induction pre with
  | nil => simp [pushDestFirst, hx]
  | cons y ys ih =>
    have hy : y.isLab = true := hpre y (List.mem_cons_self y ys)
    have hys : ∀ z ∈ ys, z.isLab = true :=
      fun z hz => hpre z (List.mem_cons_of_mem y hz)
    simp [pushDestFirst, hy, ih hys]

theorem pushSrcLast_append_oper (ys : List Instr) (a : String)
    (d s : List ℕ) (j : Option (List ℕ)) :
    pushSrcLast (ys ++ [Instr.oper a d s j])
      = ys ++ [Instr.oper a d (s ++ [RBP, RSP]) j] := by
  unfold pushSrcLast
  rw [List.reverse_append]
  simp [pushSrcFirst, Instr.isLab, pushSrc]

/-- C7 (counterexample): on the single real instruction
`add t100 ← t101`, the rbp/rsp source push lands on the appended sink
(the last non-label instruction of the extended list), not on the last
original instruction, so the sink's final source set is
callee-saved ++ special ++ `[rbp, rsp]` and the original instruction's
source vector is untouched — while the claim describes an unchanged sink
source of callee-saved ++ special and a push into the last real original
instruction. -/
theorem c7_sink_receives_source_push :
    procEntryExit2 [Instr.oper "add" [100] [101] none]
        = [Instr.oper "add" [100, RBP, RSP] [101] none,
           Instr.oper "" []
             (calleeSavedRegisters ++ specialRegisters ++ [RBP, RSP])
             (some [])] ∧
      procEntryExit2 [Instr.oper "add" [100] [101] none]
        ≠ procEntryExit2Claim [Instr.oper "add" [100] [101] none] := by
  refine ⟨by decide, by decide⟩

/-- C7 (amended): `proc_entry_exit2` appends exactly one sink `Operation`
and returns the list otherwise in order and unchanged, except that the
first non-label instruction's destination vector gains `rbp, rsp`; the
rbp/rsp *source* push lands on the appended sink itself (the last
non-label instruction after appending), so the sink's final source set is
the callee-saved plus special registers plus `rbp, rsp` and its
destination is empty, and no original instruction's source vector is
modified. -/
theorem c7_proc_entry_exit2 (pre : List Instr) (x : Instr)
    (post : List Instr) (hpre : ∀ y ∈ pre, y.isLab = true)
    (hx : x.isLab = false) :
    procEntryExit2 (pre ++ x :: post)
      = pre ++ pushDest x :: post
          ++ [Instr.oper "" []
              (calleeSavedRegisters ++ specialRegisters ++ [RBP, RSP])
              (some [])] := by
  unfold procEntryExit2 sinkInstr
  have h1 : (pre ++ x :: post) ++
      [Instr.oper "" [] (calleeSavedRegisters ++ specialRegisters)
        (some [])]
      = pre ++ x :: (post ++
        [Instr.oper "" [] (calleeSavedRegisters ++ specialRegisters)
          (some [])]) := by
    simp
  rw [h1, pushDestFirst_labels_append pre x _ hpre hx]
  have h2 : pre ++ pushDest x :: (post ++
      [Instr.oper "" [] (calleeSavedRegisters ++ specialRegisters)
        (some [])])
      = (pre ++ pushDest x :: post) ++
        [Instr.oper "" [] (calleeSavedRegisters ++ specialRegisters)
          (some [])] := by
    simp
  rw [h2, pushSrcLast_append_oper]

/-- C7 witness: a label followed by a move. -/
theorem c7_proc_entry_exit2_witness :
    procEntryExit2 [Instr.label "l1:" 1, Instr.move "mov" [100] [101]]
      = [Instr.label "l1:" 1,
         Instr.move "mov" [100, RBP, RSP] [101],
         Instr.oper "" []
           (calleeSavedRegisters ++ specialRegisters ++ [RBP, RSP])
           (some [])] :=
  c7_proc_entry_exit2 [Instr.label "l1:" 1]
    (Instr.move "mov" [100] [101]) [] (by decide) (by decide)

/-! ## Claim C2: `rewrite_program` and the next `allocate` iteration

`rewrite_program` (in `reg_alloc.rs`) first allocates, for every spilled
temporary, a fresh escaping frame slot (`frame.alloc_local(true)`) and —
line 144 — inserts *the spilled temporary itself* into `new_temps`.  It
then walks the instruction stream; the spill loads and stores are emitted
through the instruction selector `Gen`.

Modelled from the spec: the module `asm_gen` (the `Gen` instruction
selector) is not part of the provided sources.  Following the §4.2 tiles,
`gen.munch_expression(Mem(fp + k))` emits a load of the slot into a fresh
temporary and returns that temporary, and
`gen.munch_statement(Move(Temp(a), Temp(b)))` emits a register `Move`;
`gen.munch_statement(Move(Mem(fp + k), Temp(d)))` emits a store whose
sources are the frame pointer and `d` (maximal munch folds the address
into the addressing mode; the slot offset `k` appears only in the
assembly text, which is abstracted to a fixed template here). -/

/-- The spill-slot offsets: the `for spill in &spills` loop decrements the
frame pointer watermark by 8 once per spilled temporary, in order. -/
def spillSlots (pointer : Int) (spills : List ℕ) : List (ℕ × Int) :=
  (List.range spills.length).map
    (fun j => (spills.getD j 0, pointer - 8 * (j + 1)))

/-- The running state of `rewrite_program`: the fresh-temp counter of the
`Temp::new()` gensym and the accumulated `new_temps` set. -/
structure RwState where
  counter : ℕ
  newTemps : Finset ℕ
deriving DecidableEq

/-- The two instructions that reload a spilled temporary `s`: the load of
the slot into the fresh temporary `f` (`munch_expression(memory[spill])`)
followed by `Move(Temp(spill), Temp(f))`. -/
def loadSpill (s f : ℕ) : List Instr :=
  [Instr.oper "mov d0, [s0 + k]" [f] [RBP] none,
   Instr.move "mov d0, s0" [s] [f]]

/-- The store of a spilled destination `d` back to its slot
(`Move(memory[spill], Temp(spill))`). -/
def storeSpill (d : ℕ) : Instr :=
  Instr.oper "mov [s0 + k], s1" [] [RBP, d] none

/-- The first element of an operand vector that is spilled
(`.iter().find(|t| spills.contains(t))`). -/
def firstSpill (spills : List ℕ) (l : List ℕ) : Option ℕ :=
  l.find? (fun t => decide (t ∈ spills))

/-- The body of the `for instruction in instructions` loop of
`rewrite_program`: a `Label` is emitted unchanged; otherwise the first
spilled destination and the first spilled source select one of the four
match arms of the source.  The emitted instruction itself is always the
*original* one. -/
def rewriteOne (spills : List ℕ) (st : RwState) (i : Instr) :
    List Instr × RwState :=
  if i.isLab then ([i], st)
  else
    match firstSpill spills i.dests, firstSpill spills i.srcs with
    | some d, some s =>
        (loadSpill s st.counter ++ [i] ++ [storeSpill d],
          ⟨st.counter + 1, insert st.counter st.newTemps⟩)
    | some d, none => ([i, storeSpill d], st)
    | none, some s =>
        (loadSpill s st.counter ++ [i],
          ⟨st.counter + 1, insert st.counter st.newTemps⟩)
    | none, none => ([i], st)

/-- The instruction loop of `rewrite_program`. -/
def rewriteLoop (spills : List ℕ) (st : RwState) :
    List Instr → List Instr × RwState
  | [] => ([], st)
  | i :: rest =>
    let p := rewriteOne spills st i
    let q := rewriteLoop spills p.2 rest
    (p.1 ++ q.1, q.2)

/-- `rewrite_program`: `new_temps` starts with *all the spilled
temporaries* (line 144 of `reg_alloc.rs`), then the loop runs with the
current gensym counter `c`. -/
def rewriteProgram (spills : List ℕ) (c : ℕ) (instrs : List Instr) :
    List Instr × RwState :=
  rewriteLoop spills ⟨c, spills.toFinset⟩ instrs

/-- C2 (counterexample): spill `t100` in the single instruction
`add t100 ← t100` with gensym counter 200.  The rewritten stream still
contains the *original* instruction with the spilled `t100` in both
operand vectors — the fresh `t200` is copied into `t100` by the inserted
move rather than substituted into the instruction — and `new_temps`
contains the spilled `t100` itself, so the next `initial` set is not just
the fresh temporaries united with the colored and coalesced sets. -/
theorem c2_no_substitution :
    (rewriteProgram [100] 200 [Instr.oper "add d0, s0" [100] [100] none]).1
        = loadSpill 100 200 ++ [Instr.oper "add d0, s0" [100] [100] none]
            ++ [storeSpill 100] ∧
      Instr.oper "add d0, s0" [100] [100] none
        ∈ (rewriteProgram [100] 200
            [Instr.oper "add d0, s0" [100] [100] none]).1 ∧
      100 ∈ (rewriteProgram [100] 200
            [Instr.oper "add d0, s0" [100] [100] none]).2.newTemps := by
  refine ⟨by decide, by decide, by decide⟩

theorem rewriteOne_decomp (spills : List ℕ) (st : RwState) (i : Instr) :
    ∃ l₁ l₂, (rewriteOne spills st i).1 = l₁ ++ i :: l₂ := by
  unfold rewriteOne
  by_cases hl : i.isLab
  · exact ⟨[], [], by simp [hl]⟩
  · simp only [hl, if_false, Bool.false_eq_true]
    cases hd : firstSpill spills i.dests with
    | none =>
      cases hs : firstSpill spills i.srcs with
      | none => exact ⟨[], [], rfl⟩
      | some s => exact ⟨loadSpill s st.counter, [], by simp⟩
    | some d =>
      cases hs : firstSpill spills i.srcs with
      | none => exact ⟨[], [storeSpill d], rfl⟩
      | some s => exact ⟨loadSpill s st.counter, [storeSpill d], by simp⟩

theorem rewriteLoop_sublist (spills : List ℕ) :
    ∀ (instrs : List Instr) (st : RwState),
      instrs.Sublist (rewriteLoop spills st instrs).1 := by
  intro instrs
  induction instrs with
  | nil => intro st; simp [rewriteLoop]
  | cons i rest ih =>
    intro st
    show (i :: rest).Sublist
      ((rewriteOne spills st i).1 ++
        (rewriteLoop spills (rewriteOne spills st i).2 rest).1)
    obtain ⟨l₁, l₂, hone⟩ := rewriteOne_decomp spills st i
    rw [hone]
    have h2 := ih (rewriteOne spills st i).2
    have hQ : rest.Sublist
        (l₂ ++ (rewriteLoop spills (rewriteOne spills st i).2 rest).1) :=
      h2.trans (List.sublist_append_right l₂ _)
    have h3 : (i :: rest).Sublist
        (i :: (l₂ ++ (rewriteLoop spills (rewriteOne spills st i).2 rest).1)) :=
      hQ.cons₂ i
    have h4 : (l₁ ++ i :: l₂) ++
        (rewriteLoop spills (rewriteOne spills st i).2 rest).1
        = l₁ ++ (i :: (l₂ ++
            (rewriteLoop spills (rewriteOne spills st i).2 rest).1)) := by
      simp
    rw [h4]
    exact h3.trans (List.sublist_append_right l₁ _)

theorem rewriteLoop_newTemps (spills : List ℕ) (c : ℕ) :
    ∀ (instrs : List Instr) (st : RwState)
      (hinv : ∀ t, t ∈ st.newTemps ↔ t ∈ spills ∨ c ≤ t ∧ t < st.counter)
      (hc : c ≤ st.counter),
      (∀ t, t ∈ (rewriteLoop spills st instrs).2.newTemps ↔
          t ∈ spills ∨ c ≤ t ∧ t < (rewriteLoop spills st instrs).2.counter) ∧
        st.counter ≤ (rewriteLoop spills st instrs).2.counter := by
  intro instrs
  induction instrs with
  | nil =>
    intro st hinv hc
    simp only [rewriteLoop]
    exact ⟨hinv, le_refl _⟩
  | cons i rest ih =>
    intro st hinv hc
    have hbump : ∀ t, (t = st.counter ∨
        (t ∈ spills ∨ c ≤ t ∧ t < st.counter)) ↔
        t ∈ spills ∨ c ≤ t ∧ t < st.counter + 1 := by
      intro t
      constructor
      · rintro (rfl | h | ⟨h1, h2⟩)
        · exact Or.inr ⟨hc, Nat.lt_succ_self _⟩
        · exact Or.inl h
        · exact Or.inr ⟨h1, Nat.lt_succ_of_lt h2⟩
      · rintro (h | ⟨h1, h2⟩)
        · exact Or.inr (Or.inl h)
        · rcases Nat.lt_succ_iff_lt_or_eq.mp h2 with h3 | rfl
          · exact Or.inr (Or.inr ⟨h1, h3⟩)
          · exact Or.inl rfl
    have hstep : (∀ t, t ∈ (rewriteOne spills st i).2.newTemps ↔
        t ∈ spills ∨ c ≤ t ∧ t < (rewriteOne spills st i).2.counter) ∧
        st.counter ≤ (rewriteOne spills st i).2.counter := by
      unfold rewriteOne
      by_cases hl : i.isLab
      · simp only [hl, if_true]
        exact ⟨hinv, le_refl _⟩
      · simp only [hl, if_false, Bool.false_eq_true]
        cases hd : firstSpill spills i.dests with
        | none =>
          cases hs : firstSpill spills i.srcs with
          | none => exact ⟨hinv, le_refl _⟩
          | some s =>
            refine ⟨fun t => ?_, by simp⟩
            simp only [Finset.mem_insert, hinv t]
            exact hbump t
        | some d =>
          cases hs : firstSpill spills i.srcs with
          | none => exact ⟨hinv, le_refl _⟩
          | some s =>
            refine ⟨fun t => ?_, by simp⟩
            simp only [Finset.mem_insert, hinv t]
            exact hbump t
    have hrec := ih (rewriteOne spills st i).2 hstep.1 (le_trans hc hstep.2)
    exact ⟨hrec.1, le_trans hstep.2 hrec.2⟩

theorem rewriteLoop_shape (spills : List ℕ) :
    ∀ (instrs : List Instr) (st : RwState) (j : Instr),
      j ∈ (rewriteLoop spills st instrs).1 →
        j ∈ instrs ∨ (∃ s f, s ∈ spills ∧ j ∈ loadSpill s f) ∨
          (∃ d, d ∈ spills ∧ j = storeSpill d) := by
  intro instrs
  induction instrs with
  | nil => intro st j hj; simp [rewriteLoop] at hj
  | cons i rest ih =>
    intro st j hj
    have hsplit : j ∈ (rewriteOne spills st i).1 ∨
        j ∈ (rewriteLoop spills (rewriteOne spills st i).2 rest).1 := by
      simpa [rewriteLoop] using List.mem_append.mp hj
    rcases hsplit with hone | hrest
    · have hfd : ∀ d, firstSpill spills i.dests = some d → d ∈ spills := by
        intro d hd
        have := List.find?_some hd
        simpa using of_decide_eq_true this
      have hfs : ∀ s, firstSpill spills i.srcs = some s → s ∈ spills := by
        intro s hs
        have := List.find?_some hs
        simpa using of_decide_eq_true this
      unfold rewriteOne at hone
      by_cases hl : i.isLab
      · simp only [hl, if_true, List.mem_singleton] at hone
        exact Or.inl (by simp [hone])
      · simp only [hl, if_false, Bool.false_eq_true] at hone
        cases hd : firstSpill spills i.dests with
        | none =>
          cases hs : firstSpill spills i.srcs with
          | none =>
            rw [hd, hs] at hone
            simp only [List.mem_singleton] at hone
            exact Or.inl (by simp [hone])
          | some s =>
            rw [hd, hs] at hone
            rcases List.mem_append.mp hone with h | h
            · exact Or.inr (Or.inl ⟨s, st.counter, hfs s hs, h⟩)
            · simp only [List.mem_singleton] at h
              exact Or.inl (by simp [h])
        | some d =>
          cases hs : firstSpill spills i.srcs with
          | none =>
            rw [hd, hs] at hone
            rcases List.mem_cons.mp hone with h | h
            · exact Or.inl (by simp [h])
            · simp only [List.mem_singleton] at h
              exact Or.inr (Or.inr ⟨d, hfd d hd, h⟩)
          | some s =>
            rw [hd, hs] at hone
            rcases List.mem_append.mp hone with h | h
            · rcases List.mem_append.mp h with h' | h'
              · exact Or.inr (Or.inl ⟨s, st.counter, hfs s hs, h'⟩)
              · simp only [List.mem_singleton] at h'
                exact Or.inl (by simp [h'])
            · simp only [List.mem_singleton] at h
              exact Or.inr (Or.inr ⟨d, hfd d hd, h⟩)
    · rcases ih (rewriteOne spills st i).2 j hrest with h | h
      · exact Or.inl (List.mem_cons_of_mem i h)
      · exact Or.inr h

/-- C2 (amended): `rewrite_program` gives every spilled temporary a fresh
frame slot (one 8-byte slot each, at pairwise distinct offsets); the
original instructions all survive, in order and *unchanged* — for an
instruction using a spilled temporary the code inserts a load of the slot
into a fresh temporary and a move of that fresh temporary *into the
spilled temporary itself* (only for the first spilled source, and no
substitution happens in the instruction); after an instruction defining a
spilled temporary (the first spilled destination) a store back to the
slot is appended; and `new_temps` — which seeds the next `allocate`
iteration together with the colored and coalesced sets — consists of the
*spilled temporaries themselves* plus the fresh load temporaries. -/
theorem c2_rewrite_program (spills : List ℕ) (c : ℕ)
    (instrs : List Instr) (pointer : Int) :
    instrs.Sublist (rewriteProgram spills c instrs).1 ∧
      (∀ t, t ∈ (rewriteProgram spills c instrs).2.newTemps ↔
        t ∈ spills ∨ c ≤ t ∧ t < (rewriteProgram spills c instrs).2.counter) ∧
      (∀ j ∈ (rewriteProgram spills c instrs).1,
        j ∈ instrs ∨ (∃ s f, s ∈ spills ∧ j ∈ loadSpill s f) ∨
          (∃ d, d ∈ spills ∧ j = storeSpill d)) ∧
      (spillSlots pointer spills).map Prod.fst = spills ∧
      ((spillSlots pointer spills).map Prod.snd).Nodup := by
  refine ⟨rewriteLoop_sublist spills instrs _, ?_, ?_, ?_, ?_⟩
  · refine (rewriteLoop_newTemps spills c instrs ⟨c, spills.toFinset⟩
      (fun t => ?_) (le_refl c)).1
    simp only [List.mem_toFinset]
    constructor
    · exact fun h => Or.inl h
    · rintro (h | ⟨h1, h2⟩)
      · exact h
      · omega
  · exact fun j hj => rewriteLoop_shape spills instrs _ j hj
  · unfold spillSlots
    rw [List.map_map]
    apply List.ext_getElem (by simp)
    intro n h1 h2
    simp only [List.getElem_map, List.getElem_range, Function.comp_apply]
    exact List.getD_eq_getElem spills 0 (by simpa using h2)
  · unfold spillSlots
    rw [List.map_map]
    apply List.Nodup.map
    · intro a b hab
      simp only [Function.comp_apply] at hab
      omega
    · exact List.nodup_range spills.length

/-- C2 witness: spilling `t100` in a stream that also uses the unspilled
`t50`. -/
theorem c2_rewrite_program_witness :
    ([Instr.move "mov d0, s0" [50] [100]] : List Instr).Sublist
        (rewriteProgram [100] 200 [Instr.move "mov d0, s0" [50] [100]]).1 ∧
      (100 ∈ (rewriteProgram [100] 200
          [Instr.move "mov d0, s0" [50] [100]]).2.newTemps) ∧
      (spillSlots (-8) [100]).map Prod.fst = [100] :=
  ⟨(c2_rewrite_program [100] 200 [Instr.move "mov d0, s0" [50] [100]]
      (-8)).1,
    ((c2_rewrite_program [100] 200 [Instr.move "mov d0, s0" [50] [100]]
      (-8)).2.1 100).mpr (Or.inl (by decide)),
    (c2_rewrite_program [100] 200 [Instr.move "mov d0, s0" [50] [100]]
      (-8)).2.2.2.1⟩

/-! ## Ordered sets (`BTreeSet`) of the allocator (`color.rs`)

The allocator's worklists are `BTreeSet`s: ordered sets keyed by `Temp`
identity (`Temp` derives `Ord` on `num`) or by lexicographically ordered
`(Temp, Temp)` pairs.  They are embedded as strictly sorted lists;
`pop_first` takes the head. -/

/-- `BTreeSet::insert` for temporaries. -/
def oinsert (x : ℕ) : List ℕ → List ℕ
  | [] => [x]
  | y :: ys =>
    if x < y then x :: y :: ys
    else if x = y then y :: ys
    else y :: oinsert x ys

/-- `BTreeSet::remove` for temporaries. -/
def oerase (x : ℕ) : List ℕ → List ℕ
  | [] => []
  | y :: ys => if x = y then ys else y :: oerase x ys

/-- `BTreeSet::pop_first` for temporaries. -/
def opop : List ℕ → Option (ℕ × List ℕ)
  | [] => none
  | y :: ys => some (y, ys)

/-- Build a `BTreeSet` by successive inserts. -/
def buildO (xs : List ℕ) : List ℕ := xs.foldl (fun acc x => oinsert x acc) []

/-- The lexicographic `Ord` on `(Temp, Temp)` pairs used by the move sets. -/
def pairLt (a b : ℕ × ℕ) : Prop :=
  a.1 < b.1 ∨ (a.1 = b.1 ∧ a.2 < b.2)

instance (a b : ℕ × ℕ) : Decidable (pairLt a b) := by
  unfold pairLt; infer_instance

/-- Non-strict lexicographic order on pairs. -/
def pairLe (a b : ℕ × ℕ) : Prop :=
  a.1 < b.1 ∨ (a.1 = b.1 ∧ a.2 ≤ b.2)

instance (a b : ℕ × ℕ) : Decidable (pairLe a b) := by
  unfold pairLe; infer_instance

/-- `BTreeSet::insert` for move pairs. -/
def pinsert (x : ℕ × ℕ) : List (ℕ × ℕ) → List (ℕ × ℕ)
  | [] => [x]
  | y :: ys =>
    if pairLt x y then x :: y :: ys
    else if x = y then y :: ys
    else y :: pinsert x ys

/-- `BTreeSet::remove` for move pairs. -/
def perase (x : ℕ × ℕ) : List (ℕ × ℕ) → List (ℕ × ℕ)
  | [] => []
  | y :: ys => if x = y then ys else y :: perase x ys

/-- Build a pair `BTreeSet` by successive inserts. -/
def buildP (xs : List (ℕ × ℕ)) : List (ℕ × ℕ) :=
  xs.foldl (fun acc x => pinsert x acc) []

theorem mem_oinsert (a x : ℕ) (l : List ℕ) :
    a ∈ oinsert x l ↔ a = x ∨ a ∈ l := by
  induction l with
  | nil => simp [oinsert]
  | cons y ys ih =>
    unfold oinsert
    by_cases h1 : x < y
    · simp [h1]
    · by_cases h2 : x = y
      · subst h2; simp [h1]
      · simp only [h1, h2, if_false]
        simp [List.mem_cons, ih]
        tauto

theorem mem_oerase (a x : ℕ) (l : List ℕ) (h : a ∈ oerase x l) : a ∈ l := by
  induction l with
  | nil => simpa [oerase] using h
  | cons y ys ih =>
    unfold oerase at h
    by_cases h1 : x = y
    · simp only [h1, if_true] at h
      exact List.mem_cons_of_mem y h
    · simp only [h1, if_false] at h
      rcases List.mem_cons.mp h with rfl | h2
      · exact List.mem_cons_self a ys
      · exact List.mem_cons_of_mem y (ih h2)

theorem mem_pinsert (a x : ℕ × ℕ) (l : List (ℕ × ℕ)) :
    a ∈ pinsert x l ↔ a = x ∨ a ∈ l := by
  induction l with
  | nil => simp [pinsert]
  | cons y ys ih =>
    unfold pinsert
    by_cases h1 : pairLt x y
    · simp [h1]
    · by_cases h2 : x = y
      · subst h2; simp [h1]
      · simp only [h1, h2, if_false]
        simp [List.mem_cons, ih]
        tauto

theorem mem_perase (a x : ℕ × ℕ) (l : List (ℕ × ℕ))
    (h : a ∈ perase x l) : a ∈ l := by
  induction l with
  | nil => simpa [perase] using h
  | cons y ys ih =>
    unfold perase at h
    by_cases h1 : x = y
    · simp only [h1, if_true] at h
      exact List.mem_cons_of_mem y h
    · simp only [h1, if_false] at h
      rcases List.mem_cons.mp h with rfl | h2
      · exact List.mem_cons_self a ys
      · exact List.mem_cons_of_mem y (ih h2)

theorem sorted_oinsert (x : ℕ) (l : List ℕ)
    (h : List.Sorted (· < ·) l) : List.Sorted (· < ·) (oinsert x l) := by
  induction l with
  | nil => simp [oinsert]
  | cons y ys ih =>
    rw [List.sorted_cons] at h
    unfold oinsert
    by_cases h1 : x < y
    · simp only [if_pos h1]
      rw [List.sorted_cons]
      refine ⟨?_, List.sorted_cons.mpr h⟩
      intro b hb
      rcases List.mem_cons.mp hb with rfl | hb2
      · exact h1
      · exact h1.trans (h.1 b hb2)
    · by_cases h2 : x = y
      · simp only [if_neg h1, if_pos h2]
        exact List.sorted_cons.mpr h
      · simp only [if_neg h1, if_neg h2]
        rw [List.sorted_cons]
        refine ⟨?_, ih h.2⟩
        intro b hb
        rcases (mem_oinsert b x ys).mp hb with rfl | hb2
        · omega
        · exact h.1 b hb2

theorem sorted_oerase (x : ℕ) (l : List ℕ)
    (h : List.Sorted (· < ·) l) : List.Sorted (· < ·) (oerase x l) := by
  induction l with
  | nil => simp [oerase]
  | cons y ys ih =>
    rw [List.sorted_cons] at h
    unfold oerase
    by_cases h1 : x = y
    · simpa [h1] using h.2
    · simp only [h1, if_false]
      rw [List.sorted_cons]
      exact ⟨fun b hb => h.1 b (mem_oerase b x ys hb), ih h.2⟩

theorem sorted_buildO (xs : List ℕ) : List.Sorted (· < ·) (buildO xs) := by
  unfold buildO
  have hgen : ∀ (l : List ℕ) (acc : List ℕ), List.Sorted (· < ·) acc →
      List.Sorted (· < ·) (l.foldl (fun acc x => oinsert x acc) acc) := by
    intro l
    induction l with
    | nil => intro acc h; exact h
    | cons x rest ih => intro acc h; exact ih _ (sorted_oinsert x acc h)
  exact hgen xs [] (by simp)

theorem mem_buildO (a : ℕ) (xs : List ℕ) : a ∈ buildO xs ↔ a ∈ xs := by
  unfold buildO
  have hgen : ∀ (l : List ℕ) (acc : List ℕ),
      a ∈ l.foldl (fun acc x => oinsert x acc) acc ↔ a ∈ acc ∨ a ∈ l := by
    intro l
    induction l with
    | nil => intro acc; simp
    | cons x rest ih =>
      intro acc
      rw [List.foldl_cons, ih, mem_oinsert]
      simp [List.mem_cons]
      tauto
  rw [hgen xs []]
  simp

/-! ## Claim C8: deterministic smallest-first worklist removal

`simplify`, `freeze` and `coalesce` in `color.rs` remove their next
element with `pop_first()` on `BTreeSet`s ordered by `Temp` id (resp.
lexicographic pairs).  In this embedding every allocator operation is a
pure function of the state, so two runs on equal inputs are
definitionally equal; the content of the claim is that head removal on
the ordered-set representation always yields the least element of the
set, which holds for every set reachable by `insert`/`remove` from any
starting contents. -/

/-- C8: on the ordered worklist representation, `pop_first` returns the
minimum: the popped element is `≤` every member, both for the
`Temp`-keyed worklists (`simplify_worklist`, `freeze_worklist`, built by
any sequence of inserts and removals) and for the pair-keyed
`worklist_moves`; and `insert`/`remove` preserve strict sortedness, so
the property is an invariant of the allocator's worklists. -/
theorem c8_pop_first_min :
    (∀ (l : List ℕ) (t : ℕ) (rest : List ℕ), List.Sorted (· < ·) l →
      opop l = some (t, rest) → t ∈ l ∧ ∀ y ∈ l, t ≤ y) ∧
      (∀ (l : List (ℕ × ℕ)) (m : ℕ × ℕ) (rest : List (ℕ × ℕ)),
        List.Sorted pairLt l → l = m :: rest → ∀ y ∈ l, pairLe m y) ∧
      (∀ (x : ℕ) (l : List ℕ), List.Sorted (· < ·) l →
        List.Sorted (· < ·) (oinsert x l) ∧
          List.Sorted (· < ·) (oerase x l)) ∧
      (∀ xs : List ℕ, List.Sorted (· < ·) (buildO xs)) := by
  refine ⟨?_, ?_, ?_, sorted_buildO⟩
  · intro l t rest hs hp
    cases l with
    | nil => cases hp
    | cons y ys =>
      simp only [opop, Option.some_inj, Prod.mk.injEq] at hp
      obtain ⟨rfl, rfl⟩ := hp
      rw [List.sorted_cons] at hs
      refine ⟨List.mem_cons_self _ _, ?_⟩
      intro z hz
      rcases List.mem_cons.mp hz with rfl | hz2
      · exact le_refl _
      · exact le_of_lt (hs.1 z hz2)
  · intro l m rest hs hp
    subst hp
    rw [List.sorted_cons] at hs
    intro y hy
    rcases List.mem_cons.mp hy with rfl | hy2
    · unfold pairLe; omega
    · have hlt := hs.1 y hy2
      unfold pairLt at hlt
      unfold pairLe
      rcases hlt with h | ⟨h1, h2⟩
      · exact Or.inl h
      · exact Or.inr ⟨h1, le_of_lt h2⟩
  · exact fun x l h => ⟨sorted_oinsert x l h, sorted_oerase x l h⟩

/-- C8 witness: popping the worklist built from inserts of 9, 3, 7 yields
the least element 3. -/
theorem c8_pop_first_min_witness :
    3 ∈ buildO [9, 3, 7] ∧ ∀ y ∈ buildO [9, 3, 7], 3 ≤ y :=
  (c8_pop_first_min.1 (buildO [9, 3, 7]) 3 [7, 9]
    (c8_pop_first_min.2.2.2 [9, 3, 7]) (by decide))

/-! ## The iterated-coalescing allocator (`color.rs`)

The `Allocator` struct and its methods, embedded field by field.
`BTreeSet` fields are lists (as above, managed by `oinsert`/`oerase`),
`Vec` fields are lists with push at the end, `HashSet` fields are
`Finset`s, and `HashMap`s keyed by temporaries are total functions (an
absent key reads as the `or_insert` default).  Iteration over a `HashSet`
(whose order is unspecified in Rust) is embedded as iteration over the
ascending enumeration of the `Finset`. -/

/-- `usize::max_value()`, the degree `build` assigns to precolored
nodes. -/
def MAXU64 : ℕ := 2 ^ 64 - 1

/-- Pointwise update of a `HashMap` embedded as a total function. -/
def updF {α : Type} (f : ℕ → α) (k : ℕ) (v : α) : ℕ → α :=
  fun x => if x = k then v else f x

/-- The state of `color::Allocator` (minus the `PhantomData`;
`precolored` and `register_count` are the constants of the `X86_64`
frame). -/
structure CState where
  active_moves : List (ℕ × ℕ)
  adjacency_list : ℕ → Finset ℕ
  adjacency_set : Finset (ℕ × ℕ)
  aliasMap : ℕ → ℕ
  coalesced_moves : List (ℕ × ℕ)
  coalesced_nodes : List ℕ
  colored_nodes : List ℕ
  constrained_moves : Finset (ℕ × ℕ)
  degree : ℕ → ℕ
  freeze_worklist : List ℕ
  frozen_moves : Finset (ℕ × ℕ)
  move_list : ℕ → List (ℕ × ℕ)
  select_stack : List ℕ
  simplify_worklist : List ℕ
  spill_nodes : List ℕ
  spill_worklist : List ℕ
  worklist_moves : List (ℕ × ℕ)

/-- `Allocator::new`: everything empty except the move data computed by
`interference_graph`. -/
def initCState (moveList : ℕ → List (ℕ × ℕ))
    (worklistMoves : List (ℕ × ℕ)) : CState where
  active_moves := []
  adjacency_list := fun _ => ∅
  adjacency_set := ∅
  aliasMap := fun n => n
  coalesced_moves := []
  coalesced_nodes := []
  colored_nodes := []
  constrained_moves := ∅
  degree := fun _ => 0
  freeze_worklist := []
  frozen_moves := ∅
  move_list := moveList
  select_stack := []
  simplify_worklist := []
  spill_nodes := []
  spill_worklist := []
  worklist_moves := worklistMoves

/-- `Allocator::add_edge`. -/
def addEdge (u v : ℕ) (st : CState) : CState :=
  if (u, v) ∉ st.adjacency_set ∧ u ≠ v then
    let st1 := { st with
      adjacency_set := insert (u, v) (insert (v, u) st.adjacency_set) }
    let st2 := if u ∉ precolored then
        { st1 with
          adjacency_list :=
            updF st1.adjacency_list u (insert v (st1.adjacency_list u)),
          degree := updF st1.degree u (st1.degree u + 1) }
      else st1
    if v ∉ precolored then
      { st2 with
        adjacency_list :=
          updF st2.adjacency_list v (insert u (st2.adjacency_list v)),
        degree := updF st2.degree v (st2.degree v + 1) }
    else st2
  else st

/-- `Allocator::adjacent`: the recorded neighbours minus the select stack
and the coalesced nodes. -/
def adjacent (t : ℕ) (st : CState) : Finset ℕ :=
  st.adjacency_list t \
    (st.select_stack.toFinset ∪ st.coalesced_nodes.toFinset)

/-- `Allocator::node_moves`: the moves of `t` still active or pending.
(The Rust code materializes a `HashSet`; the sorted `move_list` order is
kept here.) -/
def nodeMoves (t : ℕ) (st : CState) : List (ℕ × ℕ) :=
  (st.move_list t).filter
    (fun m => decide (m ∈ st.active_moves ∨ m ∈ st.worklist_moves))

/-- `Allocator::move_related`. -/
def moveRelated (t : ℕ) (st : CState) : Bool :=
  ¬ (nodeMoves t st).isEmpty

/-- `Allocator::enable_moves` for a single node. -/
def enableMovesOne (n : ℕ) (st : CState) : CState :=
  (nodeMoves n st).foldl
    (fun s mov =>
      if mov ∈ s.active_moves then
        { s with active_moves := perase mov s.active_moves,
                 worklist_moves := pinsert mov s.worklist_moves }
      else s) st

/-- `Allocator::enable_moves`. -/
def enableMoves (ns : List ℕ) (st : CState) : CState :=
  ns.foldl (fun s n => enableMovesOne n s) st

/-- `Allocator::decrement_degree`: the `usize` subtraction wraps on 0 in
a release build. -/
def decrementDegree (t : ℕ) (st : CState) : CState :=
  let d := st.degree t
  let st1 := { st with
    degree := updF st.degree t (if d = 0 then MAXU64 else d - 1) }
  if d = registerCount then
    let st2 := enableMoves
      ((insert t (adjacent t st1)).sort (· ≤ ·)) st1
    let st3 := { st2 with spill_worklist := oerase t st2.spill_worklist }
    if moveRelated t st3 then
      { st3 with freeze_worklist := oinsert t st3.freeze_worklist }
    else
      { st3 with simplify_worklist := oinsert t st3.simplify_worklist }
  else st1

/-- `Allocator::add_worklist`. -/
def addWorklist (u : ℕ) (st : CState) : CState :=
  if u ∉ precolored ∧ ¬ moveRelated u st ∧ st.degree u < registerCount then
    { st with freeze_worklist := oerase u st.freeze_worklist,
              simplify_worklist := oinsert u st.simplify_worklist }
  else st

/-- `Allocator::get_alias`, with explicit recursion depth (the alias
chains of a run are acyclic and bounded by the number of coalesced
nodes). -/
def getAlias : ℕ → CState → ℕ → ℕ
  | 0, _, n => n
  | fuel + 1, st, n =>
    if n ∈ st.coalesced_nodes then getAlias fuel st (st.aliasMap n) else n

/-- `get_alias` at the canonical depth. -/
def getAliasF (st : CState) (n : ℕ) : ℕ :=
  getAlias st.coalesced_nodes.length st n

/-- `Allocator::ok` (the George-test condition for one neighbour). -/
def okP (t u : ℕ) (st : CState) : Prop :=
  st.degree t < registerCount ∨ t ∈ precolored ∨ (t, u) ∈ st.adjacency_set

instance (t u : ℕ) (st : CState) : Decidable (okP t u st) := by
  unfold okP; infer_instance

/-- `Allocator::conservative` (the Briggs test): fewer than K combined
neighbours of significant degree. -/
def conservativeP (ns : Finset ℕ) (st : CState) : Prop :=
  (ns.filter (fun n => registerCount ≤ st.degree n)).card < registerCount

instance (ns : Finset ℕ) (st : CState) : Decidable (conservativeP ns st) := by
  unfold conservativeP; infer_instance

/-- `Allocator::combine`. -/
def combine (u v : ℕ) (st : CState) : CState :=
  let st1 := if v ∈ st.freeze_worklist then
      { st with freeze_worklist := oerase v st.freeze_worklist }
    else
      { st with spill_worklist := oerase v st.spill_worklist }
  let st2 := { st1 with coalesced_nodes := oinsert v st1.coalesced_nodes,
                        aliasMap := updF st1.aliasMap v u }
  let st3 := { st2 with
    move_list :=
      updF st2.move_list u (buildP (st2.move_list u ++ st2.move_list v)) }
  let st4 := enableMoves [v] st3
  let st5 := ((adjacent v st4).sort (· ≤ ·)).foldl
    (fun s t => decrementDegree t (addEdge t u s)) st4
  if registerCount ≤ st5.degree u ∧ u ∈ st5.freeze_worklist then
    { st5 with freeze_worklist := oerase u st5.freeze_worklist,
               spill_worklist := oinsert u st5.spill_worklist }
  else st5

/-- `Allocator::coalesce`. -/
def coalesceS (st : CState) : CState :=
  match st.worklist_moves with
  | [] => st
  | mov :: restMoves =>
    let st0 := { st with worklist_moves := restMoves }
    let x := getAliasF st0 mov.1
    let y := getAliasF st0 mov.2
    let u := if y ∈ precolored then y else x
    let v := if y ∈ precolored then x else y
    let ns := adjacent u st0 ∪ adjacent v st0
    if u = v then
      addWorklist u
        { st0 with coalesced_moves := pinsert mov st0.coalesced_moves }
    else if v ∈ precolored ∨ (u, v) ∈ st0.adjacency_set then
      addWorklist v (addWorklist u
        { st0 with constrained_moves := insert mov st0.constrained_moves })
    else if (u ∈ precolored ∧ ∀ t ∈ adjacent v st0, okP t u st0) ∨
        (u ∉ precolored ∧ conservativeP ns st0) then
      addWorklist u (combine u v
        { st0 with coalesced_moves := pinsert mov st0.coalesced_moves })
    else
      { st0 with active_moves := pinsert mov st0.active_moves }

/-- `Allocator::freeze_moves`. -/
def freezeMoves (u : ℕ) (st : CState) : CState :=
  (nodeMoves u st).foldl
    (fun s mov =>
      let v := if getAliasF s mov.2 = getAliasF s u
        then getAliasF s mov.1 else getAliasF s mov.2
      let s1 := { s with active_moves := perase mov s.active_moves,
                         frozen_moves := insert mov s.frozen_moves }
      if (nodeMoves v s1).isEmpty ∧ s1.degree v < registerCount then
        { s1 with freeze_worklist := oerase v s1.freeze_worklist,
                  simplify_worklist := oinsert v s1.simplify_worklist }
      else s1) st

/-- `Allocator::freeze`. -/
def freezeS (st : CState) : CState :=
  match st.freeze_worklist with
  | [] => st
  | u :: rest =>
    freezeMoves u
      { st with freeze_worklist := rest,
                simplify_worklist := oinsert u st.simplify_worklist }

/-- `spill_cost`: `-(degree as i32)`, with the `usize → i32` cast
wrapping. -/
def spillCost (d : ℕ) : Int :=
  let m : ℕ := d % 2 ^ 32
  let i : Int := (if m < 2 ^ 31 then (m : Int) else (m : Int) - 2 ^ 32)
  Neg.neg i

/-- `min_by_key` over the ascending worklist: the first element with
minimal spill cost. -/
def spillMin (l : List ℕ) (st : CState) : Option ℕ :=
  l.foldl
    (fun acc t =>
      match acc with
      | none => some t
      | some b =>
        if spillCost (st.degree t) < spillCost (st.degree b) then some t
        else acc)
    none

/-- `Allocator::select_spill`. -/
def selectSpillS (st : CState) : CState :=
  match spillMin st.spill_worklist st with
  | none => st
  | some t =>
    freezeMoves t
      { st with spill_worklist := oerase t st.spill_worklist,
                simplify_worklist := oinsert t st.simplify_worklist }

/-- `Allocator::simplify`. -/
def simplifyS (st : CState) : CState :=
  match st.simplify_worklist with
  | [] => st
  | t :: rest =>
    let st1 := { st with simplify_worklist := rest,
                         select_stack := st.select_stack ++ [t] }
    ((adjacent t st1).sort (· ≤ ·)).foldl
      (fun s n => decrementDegree n s) st1

/-- `Allocator::make_worklist`. -/
def makeWorklist (initial : List ℕ) (st : CState) : CState :=
  initial.foldl
    (fun s n =>
      if registerCount ≤ s.degree n then
        { s with spill_worklist := oinsert n s.spill_worklist }
      else if moveRelated n s then
        { s with freeze_worklist := oinsert n s.freeze_worklist }
      else
        { s with simplify_worklist := oinsert n s.simplify_worklist })
    st

/-- One node of the interference graph as `build` consumes it: its
temporary and the temporaries of its predecessor and successor entries. -/
structure IGNode where
  temp : ℕ
  preds : List ℕ
  succs : List ℕ

/-- `Allocator::build`: add the edges of every graph node, then give
every precolored node pseudo-infinite degree. -/
def buildS (nodes : List IGNode) (st : CState) : CState :=
  let st1 := nodes.foldl
    (fun s nd =>
      let s2 := nd.preds.foldl (fun s p => addEdge nd.temp p s) s
      nd.succs.foldl (fun s q => addEdge nd.temp q s) s2)
    st
  (precolored.sort (· ≤ ·)).foldl
    (fun s p => { s with degree := updF s.degree p MAXU64 }) st1

/-- The body of the `while` loop of `Allocator::allocate`: the four
phases in priority order. -/
def loopStep (st : CState) : CState :=
  if ¬ st.simplify_worklist.isEmpty then simplifyS st
  else if ¬ st.worklist_moves.isEmpty then coalesceS st
  else if ¬ st.freeze_worklist.isEmpty then freezeS st
  else if ¬ st.spill_worklist.isEmpty then selectSpillS st
  else st

/-- The `while` loop of `Allocator::allocate`, with explicit fuel. -/
def loopAlloc : ℕ → CState → CState
  | 0, st => st
  | fuel + 1, st =>
    if st.simplify_worklist.isEmpty ∧ st.spill_worklist.isEmpty ∧
        st.worklist_moves.isEmpty ∧ st.freeze_worklist.isEmpty then st
    else loopAlloc fuel (loopStep st)

/-- The `ok_colors` set of `assign_colors` for one popped temporary: all
machine registers minus the colors of the already colored or precolored
aliases of its recorded neighbours. -/
def okColors (t : ℕ) (colors : ℕ → Option ℕ) (st : CState) : List ℕ :=
  ((st.adjacency_list t).sort (· ≤ ·)).foldl
    (fun ok n =>
      let a := getAliasF st n
      if a ∈ st.colored_nodes ∨ a ∈ precolored then
        match colors a with
        | some c => oerase c ok
        | none => ok
      else ok)
    (buildO registers)

/-- The `while let Some(temp) = select_stack.pop()` loop of
`assign_colors`, processing the stack top first. -/
def assignLoop : List ℕ → (ℕ → Option ℕ) → CState →
    (ℕ → Option ℕ) × CState
  | [], colors, st => (colors, st)
  | t :: rest, colors, st =>
    match (okColors t colors st).head? with
    | some c =>
      assignLoop rest (updF colors t (some c))
        { st with colored_nodes := oinsert t st.colored_nodes }
    | none =>
      assignLoop rest colors
        { st with spill_nodes := st.spill_nodes ++ [t] }

/-- `Allocator::assign_colors`: initialize every precolored temporary
with itself, pop the select stack, then give each coalesced node its
alias's color. -/
def assignColorsS (st : CState) : (ℕ → Option ℕ) × CState :=
  let colors0 : ℕ → Option ℕ :=
    fun t => if t ∈ precolored then some t else none
  let p := assignLoop st.select_stack.reverse colors0
    { st with select_stack := [] }
  let colors2 := p.2.coalesced_nodes.foldl
    (fun cs node =>
      match cs (getAliasF p.2 node) with
      | some c => updF cs node (some c)
      | none => cs)
    p.1
  (colors2, p.2)

/-- `Allocator::allocate` up to (and including) `assign_colors`: `build`,
`make_worklist`, the main loop, then coloring.  Returns the allocation
and the final state (whose `spill_nodes` is the spill list `color`
returns). -/
def colorMain (nodes : List IGNode) (moveList : ℕ → List (ℕ × ℕ))
    (worklistMoves : List (ℕ × ℕ)) (initial : List ℕ) (fuel : ℕ) :
    (ℕ → Option ℕ) × CState :=
  assignColorsS
    (loopAlloc fuel
      (makeWorklist initial (buildS nodes
        (initCState moveList worklistMoves))))

/-! ## Claim C9: precolored temporaries stay out of the worklists

The invariant: no precolored temporary sits in `simplify_worklist`,
`freeze_worklist`, `spill_worklist`, on `select_stack`, in
`coalesced_nodes`, or in `spill_nodes`; and every precolored temporary
keeps a degree far above `K` (it starts at `usize::MAX` and each main-loop
iteration decrements any fixed temporary's degree at most once). -/

/-- The worklist fields whose precolored-freeness is the invariant. -/
def wlParts (st : CState) :
    List ℕ × List ℕ × List ℕ × List ℕ × List ℕ × List ℕ :=
  (st.simplify_worklist, st.freeze_worklist, st.spill_worklist,
    st.select_stack, st.coalesced_nodes, st.spill_nodes)

/-- No precolored temporary in any worklist, on the select stack, among
the coalesced nodes or in the spill list. -/
def okInv (st : CState) : Prop :=
  (∀ t ∈ st.simplify_worklist, t ∉ precolored) ∧
    (∀ t ∈ st.freeze_worklist, t ∉ precolored) ∧
    (∀ t ∈ st.spill_worklist, t ∉ precolored) ∧
    (∀ t ∈ st.select_stack, t ∉ precolored) ∧
    (∀ t ∈ st.coalesced_nodes, t ∉ precolored) ∧
    (∀ t ∈ st.spill_nodes, t ∉ precolored)

/-- Every precolored temporary still has `slack` spare degree above `K`. -/
def degInv (slack : ℕ) (st : CState) : Prop :=
  ∀ p ∈ precolored, registerCount + slack ≤ st.degree p

theorem degInv_mono (s₁ s₂ : ℕ) (st : CState) (h : s₂ ≤ s₁)
    (hd : degInv s₁ st) : degInv s₂ st := by
  intro p hp
  have := hd p hp
  omega

theorem okInv_of_wlParts (st' st : CState)
    (h : wlParts st' = wlParts st) (hok : okInv st) : okInv st' := by
  unfold wlParts at h
  simp only [Prod.mk.injEq] at h
  obtain ⟨h1, h2, h3, h4, h5, h6⟩ := h
  unfold okInv at hok ⊢
  rw [h1, h2, h3, h4, h5, h6]
  exact hok

theorem addEdge_wlParts (u v : ℕ) (st : CState) :
    wlParts (addEdge u v st) = wlParts st := by
  unfold addEdge
  split
  · dsimp only
    split <;> split <;> rfl
  · rfl

theorem addEdge_degree_pre (u v p : ℕ) (st : CState) (hp : p ∈ precolored) :
    (addEdge u v st).degree p = st.degree p := by
  have hpu : u ∉ precolored → p ≠ u := fun hu h => hu (h ▸ hp)
  have hpv : v ∉ precolored → p ≠ v := fun hv h => hv (h ▸ hp)
  unfold addEdge
  split
  · dsimp only
    by_cases hu : u ∉ precolored <;> by_cases hv : v ∉ precolored <;>
      simp only [hu, hv, if_true, if_false] <;>
      first
        | rfl
        | simp [updF, hpu hu, hpv hv]
        | simp [updF, hpu hu]
        | simp [updF, hpv hv]
  · rfl

theorem enableMovesOne_wlParts_degree (n : ℕ) (st : CState) :
    wlParts (enableMovesOne n st) = wlParts st ∧
      (enableMovesOne n st).degree = st.degree := by
  unfold enableMovesOne
  generalize nodeMoves n st = l
  induction l generalizing st with
  | nil => exact ⟨rfl, rfl⟩
  | cons m rest ih =>
    rw [List.foldl_cons]
    have hstep : ∀ s : CState,
        wlParts (if m ∈ s.active_moves then
          { s with active_moves := perase m s.active_moves,
                   worklist_moves := pinsert m s.worklist_moves }
          else s) = wlParts s ∧
        (if m ∈ s.active_moves then
          { s with active_moves := perase m s.active_moves,
                   worklist_moves := pinsert m s.worklist_moves }
          else s).degree = s.degree := by
      intro s
      split <;> exact ⟨rfl, rfl⟩
    have := ih (if m ∈ st.active_moves then
      { st with active_moves := perase m st.active_moves,
                worklist_moves := pinsert m st.worklist_moves }
      else st)
    exact ⟨this.1.trans (hstep st).1, this.2.trans (hstep st).2⟩

theorem enableMoves_wlParts_degree (ns : List ℕ) (st : CState) :
    wlParts (enableMoves ns st) = wlParts st ∧
      (enableMoves ns st).degree = st.degree := by
  unfold enableMoves
  induction ns generalizing st with
  | nil => exact ⟨rfl, rfl⟩
  | cons n rest ih =>
    rw [List.foldl_cons]
    have h1 := enableMovesOne_wlParts_degree n st
    have h2 := ih (enableMovesOne n st)
    exact ⟨h2.1.trans h1.1, h2.2.trans h1.2⟩

/-! `okInv` is preserved by each elementary worklist mutation. -/

theorem okInv_simplify_oinsert (s : CState) (x : ℕ) (hx : x ∉ precolored)
    (h : okInv s) :
    okInv { s with simplify_worklist := oinsert x s.simplify_worklist } := by
  obtain ⟨a, b, c, d, e, f⟩ := h
  refine ⟨?_, b, c, d, e, f⟩
  intro y hy
  rcases (mem_oinsert y x _).mp hy with rfl | hy2
  · exact hx
  · exact a y hy2

theorem okInv_freeze_oinsert (s : CState) (x : ℕ) (hx : x ∉ precolored)
    (h : okInv s) :
    okInv { s with freeze_worklist := oinsert x s.freeze_worklist } := by
  obtain ⟨a, b, c, d, e, f⟩ := h
  refine ⟨a, ?_, c, d, e, f⟩
  intro y hy
  rcases (mem_oinsert y x _).mp hy with rfl | hy2
  · exact hx
  · exact b y hy2

theorem okInv_spillwl_oinsert (s : CState) (x : ℕ) (hx : x ∉ precolored)
    (h : okInv s) :
    okInv { s with spill_worklist := oinsert x s.spill_worklist } := by
  obtain ⟨a, b, c, d, e, f⟩ := h
  refine ⟨a, b, ?_, d, e, f⟩
  intro y hy
  rcases (mem_oinsert y x _).mp hy with rfl | hy2
  · exact hx
  · exact c y hy2

theorem okInv_freeze_oerase (s : CState) (x : ℕ) (h : okInv s) :
    okInv { s with freeze_worklist := oerase x s.freeze_worklist } := by
  obtain ⟨a, b, c, d, e, f⟩ := h
  exact ⟨a, fun y hy => b y (mem_oerase y x _ hy), c, d, e, f⟩

theorem okInv_spillwl_oerase (s : CState) (x : ℕ) (h : okInv s) :
    okInv { s with spill_worklist := oerase x s.spill_worklist } := by
  obtain ⟨a, b, c, d, e, f⟩ := h
  exact ⟨a, b, fun y hy => c y (mem_oerase y x _ hy), d, e, f⟩

theorem okInv_coalesced_oinsert (s : CState) (x : ℕ) (hx : x ∉ precolored)
    (h : okInv s) :
    okInv { s with coalesced_nodes := oinsert x s.coalesced_nodes } := by
  obtain ⟨a, b, c, d, e, f⟩ := h
  refine ⟨a, b, c, d, ?_, f⟩
  intro y hy
  rcases (mem_oinsert y x _).mp hy with rfl | hy2
  · exact hx
  · exact e y hy2

theorem okInv_select_push (s : CState) (x : ℕ) (hx : x ∉ precolored)
    (h : okInv s) :
    okInv { s with select_stack := s.select_stack ++ [x] } := by
  obtain ⟨a, b, c, d, e, f⟩ := h
  refine ⟨a, b, c, ?_, e, f⟩
  intro y hy
  rcases List.mem_append.mp hy with hy2 | hy2
  · exact d y hy2
  · rcases List.mem_singleton.mp hy2 with rfl
    exact hx

/-- `decrement_degree` preserves the invariant: when the decremented
temporary is precolored its degree sits strictly above `K`, so the
worklist-migration branch is never taken for it, and the degree of any
other temporary is untouched. -/
theorem decrementDegree_props (t : ℕ) (st : CState) (hok : okInv st)
    (hKt : t ∈ precolored → registerCount < st.degree t) :
    okInv (decrementDegree t st) ∧
      (∀ p, p ≠ t → (decrementDegree t st).degree p = st.degree p) ∧
      (∀ p ∈ precolored, st.degree p - 1 ≤ (decrementDegree t st).degree p) := by
  unfold decrementDegree
  dsimp only
  by_cases hd : st.degree t = registerCount
  · -- the migration branch: `t` cannot be precolored here
    have ht : t ∉ precolored := by
      intro hpre
      have := hKt hpre
      omega
    rw [if_pos hd]
    set st1 : CState := { st with
      degree := updF st.degree t
        (if st.degree t = 0 then MAXU64 else st.degree t - 1) } with hst1
    have hok1 : okInv st1 := okInv_of_wlParts st1 st rfl hok
    have hem := enableMoves_wlParts_degree
      ((insert t (adjacent t st1)).sort (· ≤ ·)) st1
    set stE := enableMoves ((insert t (adjacent t st1)).sort (· ≤ ·)) st1
      with hstE
    have hok2 : okInv stE := okInv_of_wlParts stE st1 hem.1 hok1
    have hdeg2 : stE.degree = st1.degree := hem.2
    set st3 : CState :=
      { stE with spill_worklist := oerase t stE.spill_worklist } with hst3
    have hok3 : okInv st3 := okInv_spillwl_oerase stE t hok2
    have hdeg3 : st3.degree = st1.degree := hdeg2
    have hda : ∀ p, p ≠ t → st3.degree p = st.degree p := by
      intro p hp
      rw [hdeg3, hst1]
      simp [updF, hp]
    have hdb : ∀ p ∈ precolored, st.degree p - 1 ≤ st3.degree p := by
      intro p hp
      have hpt : p ≠ t := fun h => ht (h ▸ hp)
      rw [hda p hpt]
      omega
    by_cases hmr : moveRelated t st3
    · rw [if_pos hmr]
      exact ⟨okInv_freeze_oinsert st3 t ht hok3, hda, hdb⟩
    · rw [if_neg hmr]
      exact ⟨okInv_simplify_oinsert st3 t ht hok3, hda, hdb⟩
  · rw [if_neg hd]
    refine ⟨okInv_of_wlParts _ st rfl hok, ?_, ?_⟩
    · intro p hp
      simp [updF, hp]
    · intro p hp
      by_cases hpt : p = t
      · subst hpt
        simp only [updF, MAXU64]
        repeat' split
        all_goals omega
      · simp [updF, hpt]

/-- Folding `decrement_degree` (preceded by a degree-preserving,
invariant-preserving preparation step, as in `combine`'s
`add_edge; decrement_degree` loop) over a set of distinct temporaries
consumes at most one unit of precolored degree slack in total: each
precolored temporary is decremented at most once. -/
theorem foldDecr_props (g : ℕ → CState → CState)
    (hg : ∀ t s, okInv s → okInv (g t s) ∧
      ∀ p ∈ precolored, (g t s).degree p = s.degree p)
    (slack : ℕ) :
    ∀ (l : List ℕ), l.Nodup → ∀ st : CState, okInv st →
      (∀ p ∈ precolored, registerCount + slack +
        (if p ∈ l then 1 else 0) ≤ st.degree p) →
      okInv (l.foldl (fun s t => decrementDegree t (g t s)) st) ∧
        ∀ p ∈ precolored, registerCount + slack ≤
          (l.foldl (fun s t => decrementDegree t (g t s)) st).degree p := by
  intro l
  induction l with
  | nil =>
    intro _ st hok hdeg
    refine ⟨hok, fun p hp => ?_⟩
    have := hdeg p hp
    simpa using this
  | cons t rest ih =>
    intro hnd st hok hdeg
    obtain ⟨hnotin, hndr⟩ := List.nodup_cons.mp hnd
    have hg1 := hg t st hok
    have hKt : t ∈ precolored → registerCount < (g t st).degree t := by
      intro hpre
      rw [hg1.2 t hpre]
      have h1 := hdeg t hpre
      rw [if_pos (List.mem_cons_self t rest)] at h1
      omega
    have hdec := decrementDegree_props t (g t st) hg1.1 hKt
    rw [List.foldl_cons]
    apply ih hndr _ hdec.1
    intro p hp
    by_cases hpt : p = t
    · subst hpt
      have h1 := hdec.2.2 p hp
      have h2 := hdeg p hp
      rw [if_pos (List.mem_cons_self p rest)] at h2
      have h3 := hg1.2 p hp
      rw [h3] at h1
      rw [if_neg hnotin]
      omega
    · have heq := hdec.2.1 p hpt
      rw [heq, hg1.2 p hp]
      have h2 := hdeg p hp
      by_cases hr : p ∈ rest
      · rw [if_pos hr]
        rw [if_pos (List.mem_cons_of_mem t hr)] at h2
        omega
      · rw [if_neg hr]
        have := hdeg p hp
        omega

/-- `add_worklist` preserves the invariant and all degrees. -/
theorem addWorklist_props (u : ℕ) (st : CState) (hok : okInv st) :
    okInv (addWorklist u st) ∧ (addWorklist u st).degree = st.degree := by
  unfold addWorklist
  split
  · rename_i hcond
    refine ⟨?_, rfl⟩
    exact okInv_simplify_oinsert _ u hcond.1 (okInv_freeze_oerase st u hok)
  · exact ⟨hok, rfl⟩

/-- `freeze_moves` preserves the invariant and all degrees: the only
worklist migration moves a node of insignificant degree — hence not
precolored — from `freeze_worklist` to `simplify_worklist`. -/
theorem freezeMoves_props (u : ℕ) (st : CState) (hok : okInv st)
    (hdeg : degInv 0 st) :
    okInv (freezeMoves u st) ∧ (freezeMoves u st).degree = st.degree := by
  unfold freezeMoves
  generalize nodeMoves u st = l
  induction l generalizing st with
  | nil => exact ⟨hok, rfl⟩
  | cons m rest ih =>
    rw [List.foldl_cons]
    dsimp only
    set v := if getAliasF st m.2 = getAliasF st u
      then getAliasF st m.1 else getAliasF st m.2 with hv
    set s1 : CState := { st with active_moves := perase m st.active_moves,
                                 frozen_moves := insert m st.frozen_moves }
      with hs1
    have hok1 : okInv s1 := okInv_of_wlParts s1 st rfl hok
    have hdeg1 : degInv 0 s1 := hdeg
    by_cases hc : (nodeMoves v s1).isEmpty ∧ s1.degree v < registerCount
    · rw [if_pos hc]
      have hvpre : v ∉ precolored := by
        intro hvp
        have := hdeg1 v hvp
        omega
      have := ih { s1 with
          freeze_worklist := oerase v s1.freeze_worklist,
          simplify_worklist := oinsert v s1.simplify_worklist }
        (okInv_simplify_oinsert _ v hvpre (okInv_freeze_oerase s1 v hok1))
        hdeg1
      exact this
    · rw [if_neg hc]
      exact ih s1 hok1 hdeg1

/-- `simplify` preserves the invariant, spending one unit of slack. -/
theorem simplifyS_props (st : CState) (slack : ℕ) (hok : okInv st)
    (hdeg : degInv (slack + 1) st) :
    okInv (simplifyS st) ∧ degInv slack (simplifyS st) := by
  unfold simplifyS
  cases hw : st.simplify_worklist with
  | nil =>
    exact ⟨hok, degInv_mono _ _ _ (by omega) hdeg⟩
  | cons t rest =>
    dsimp only
    have ht : t ∉ precolored := by
      have := hok.1 t
      rw [hw] at this
      exact this (List.mem_cons_self t rest)
    set st1 : CState := { st with simplify_worklist := rest,
                                  select_stack := st.select_stack ++ [t] }
      with hst1
    have hok1 : okInv st1 := by
      obtain ⟨a, b, c, d, e, f⟩ := hok
      refine ⟨?_, b, c, ?_, e, f⟩
      · intro y hy
        apply a
        rw [hw]
        exact List.mem_cons_of_mem t hy
      · intro y hy
        rcases List.mem_append.mp hy with hy2 | hy2
        · exact d y hy2
        · rcases List.mem_singleton.mp hy2 with rfl
          exact ht
    have hfold := foldDecr_props (fun _ s => s)
      (fun t s h => ⟨h, fun p _ => rfl⟩) slack
      ((adjacent t st1).sort (· ≤ ·)) (Finset.sort_nodup _ _) st1 hok1
      (fun p hp => by
        have h1 := hdeg p hp
        have h2 : st1.degree p = st.degree p := rfl
        rw [h2]
        split <;> omega)
    exact ⟨hfold.1, hfold.2⟩

/-- The temporary `select_spill` picks is a member of the spill
worklist. -/
theorem spillMin_mem (l : List ℕ) (st : CState) (t : ℕ)
    (h : spillMin l st = some t) : t ∈ l := by
  unfold spillMin at h
  have hgen : ∀ (l' : List ℕ) (acc : Option ℕ),
      l'.foldl (fun acc t =>
        match acc with
        | none => some t
        | some b =>
          if spillCost (st.degree t) < spillCost (st.degree b) then some t
          else acc) acc = some t →
      (acc = some t ∨ t ∈ l') := by
    intro l'
    induction l' with
    | nil => intro acc h; exact Or.inl h
    | cons x rest ih =>
      intro acc h
      rw [List.foldl_cons] at h
      rcases ih _ h with h2 | h2
      · cases acc with
        | none =>
          dsimp only at h2
          simp only [Option.some_inj] at h2
          exact Or.inr (h2 ▸ List.mem_cons_self x rest)
        | some b =>
          dsimp only at h2
          by_cases hlt : spillCost (st.degree x) < spillCost (st.degree b)
          · rw [if_pos hlt] at h2
            simp only [Option.some_inj] at h2
            exact Or.inr (h2 ▸ List.mem_cons_self x rest)
          · rw [if_neg hlt] at h2
            exact Or.inl h2
      · exact Or.inr (List.mem_cons_of_mem x h2)
  rcases hgen l none h with h2 | h2
  · cases h2
  · exact h2

/-- `freeze` preserves the invariant and all degrees. -/
theorem freezeS_props (st : CState) (slack : ℕ) (hok : okInv st)
    (hdeg : degInv slack st) :
    okInv (freezeS st) ∧ degInv slack (freezeS st) := by
  unfold freezeS
  cases hw : st.freeze_worklist with
  | nil => exact ⟨hok, hdeg⟩
  | cons u rest =>
    dsimp only
    have hu : u ∉ precolored := by
      have := hok.2.1 u
      rw [hw] at this
      exact this (List.mem_cons_self u rest)
    set st1 : CState :=
      { st with
        freeze_worklist := rest,
        simplify_worklist := oinsert u st.simplify_worklist } with hst1
    have hok1 : okInv st1 := by
      obtain ⟨a, b, c, d, e, f⟩ := hok
      refine ⟨?_, ?_, c, d, e, f⟩
      · intro y hy
        rcases (mem_oinsert y u _).mp hy with rfl | hy2
        · exact hu
        · exact a y hy2
      · intro y hy
        apply b
        rw [hw]
        exact List.mem_cons_of_mem u hy
    have hfm := freezeMoves_props u st1 hok1
      (degInv_mono slack 0 st1 (by omega) hdeg)
    refine ⟨hfm.1, ?_⟩
    intro p hp
    rw [hfm.2]
    exact hdeg p hp

/-- `select_spill` preserves the invariant and all degrees. -/
theorem selectSpillS_props (st : CState) (slack : ℕ) (hok : okInv st)
    (hdeg : degInv slack st) :
    okInv (selectSpillS st) ∧ degInv slack (selectSpillS st) := by
  unfold selectSpillS
  cases hw : spillMin st.spill_worklist st with
  | none => exact ⟨hok, hdeg⟩
  | some t =>
    dsimp only
    have ht : t ∉ precolored :=
      hok.2.2.1 t (spillMin_mem _ _ _ hw)
    set st1 : CState :=
      { st with
        spill_worklist := oerase t st.spill_worklist,
        simplify_worklist := oinsert t st.simplify_worklist } with hst1
    have hok1 : okInv st1 := by
      obtain ⟨a, b, c, d, e, f⟩ := hok
      refine ⟨?_, b, ?_, d, e, f⟩
      · intro y hy
        rcases (mem_oinsert y t _).mp hy with rfl | hy2
        · exact ht
        · exact a y hy2
      · intro y hy
        exact c y (mem_oerase y t _ hy)
    have hfm := freezeMoves_props t st1 hok1
      (degInv_mono slack 0 st1 (by omega) hdeg)
    refine ⟨hfm.1, ?_⟩
    intro p hp
    rw [hfm.2]
    exact hdeg p hp

/-- `combine` preserves the invariant, spending one unit of slack (the
single `add_edge`/`decrement_degree` pass over the remaining neighbours
of `v`). -/
theorem combine_props (u v : ℕ) (st : CState) (slack : ℕ)
    (hok : okInv st) (hdeg : degInv (slack + 1) st)
    (hv : v ∉ precolored) :
    okInv (combine u v st) ∧ degInv slack (combine u v st) := by
  unfold combine
  dsimp only
  set st1 := (if v ∈ st.freeze_worklist then
      { st with freeze_worklist := oerase v st.freeze_worklist }
    else
      { st with spill_worklist := oerase v st.spill_worklist }) with hst1
  have hok1 : okInv st1 := by
    rw [hst1]
    split
    · exact okInv_freeze_oerase st v hok
    · exact okInv_spillwl_oerase st v hok
  have hdeg1 : degInv (slack + 1) st1 := by
    intro p hp
    have := hdeg p hp
    rw [hst1]
    split <;> exact this
  set st2 : CState := { st1 with
      coalesced_nodes := oinsert v st1.coalesced_nodes,
      aliasMap := updF st1.aliasMap v u } with hst2
  have hok2 : okInv st2 := okInv_coalesced_oinsert _ v hv hok1
  have hdeg2 : degInv (slack + 1) st2 := hdeg1
  set st3 : CState := { st2 with
      move_list :=
        updF st2.move_list u (buildP (st2.move_list u ++ st2.move_list v)) }
    with hst3
  have hok3 : okInv st3 := okInv_of_wlParts st3 st2 rfl hok2
  have hdeg3 : degInv (slack + 1) st3 := hdeg2
  have hem := enableMoves_wlParts_degree [v] st3
  set st4 := enableMoves [v] st3 with hst4
  have hok4 : okInv st4 := okInv_of_wlParts st4 st3 hem.1 hok3
  have hdeg4 : degInv (slack + 1) st4 := by
    intro p hp
    rw [hem.2]
    exact hdeg3 p hp
  have hfold := foldDecr_props (fun t s => addEdge t u s)
    (fun t s h => ⟨okInv_of_wlParts _ s (addEdge_wlParts t u s) h,
      fun p hp => addEdge_degree_pre t u p s hp⟩)
    slack ((adjacent v st4).sort (· ≤ ·)) (Finset.sort_nodup _ _) st4 hok4
    (fun p hp => by
      have := hdeg4 p hp
      split <;> omega)
  set st5 := ((adjacent v st4).sort (· ≤ ·)).foldl
    (fun s t => decrementDegree t (addEdge t u s)) st4 with hst5
  by_cases hc : registerCount ≤ st5.degree u ∧ u ∈ st5.freeze_worklist
  · rw [if_pos hc]
    have hu : u ∉ precolored := hfold.1.2.1 u hc.2
    refine ⟨okInv_spillwl_oinsert _ u hu (okInv_freeze_oerase st5 u hfold.1),
      ?_⟩
    intro p hp
    exact hfold.2 p hp
  · rw [if_neg hc]
    exact ⟨hfold.1, hfold.2⟩

theorem addWorklist_preserve (u : ℕ) (s : CState) (slack : ℕ)
    (hok : okInv s) (hdeg : degInv slack s) :
    okInv (addWorklist u s) ∧ degInv slack (addWorklist u s) := by
  refine ⟨(addWorklist_props u s hok).1, ?_⟩
  intro p hp
  rw [(addWorklist_props u s hok).2]
  exact hdeg p hp

/-- `coalesce` preserves the invariant, spending one unit of slack. -/
theorem coalesceS_props (st : CState) (slack : ℕ) (hok : okInv st)
    (hdeg : degInv (slack + 1) st) :
    okInv (coalesceS st) ∧ degInv slack (coalesceS st) := by
  unfold coalesceS
  cases hw : st.worklist_moves with
  | nil => exact ⟨hok, degInv_mono _ _ _ (by omega) hdeg⟩
  | cons mov restMoves =>
    dsimp only
    set st0 : CState := { st with worklist_moves := restMoves } with hst0
    set x := getAliasF st0 mov.1 with hx
    set y := getAliasF st0 mov.2 with hy
    set u := (if y ∈ precolored then y else x) with hudef
    set v := (if y ∈ precolored then x else y) with hvdef
    by_cases huv : u = v
    · rw [if_pos huv]
      exact addWorklist_preserve _ _ slack (okInv_of_wlParts _ st rfl hok)
        (fun p hp => le_trans
          (Nat.add_le_add_left (Nat.le_succ slack) registerCount)
          (hdeg p hp))
    · rw [if_neg huv]
      by_cases hcon : v ∈ precolored ∨ (u, v) ∈ st.adjacency_set
      · rw [if_pos hcon]
        have hinner := addWorklist_preserve u
          { st0 with constrained_moves := insert mov st0.constrained_moves }
          slack (okInv_of_wlParts _ st rfl hok)
          (fun p hp => le_trans
            (Nat.add_le_add_left (Nat.le_succ slack) registerCount)
            (hdeg p hp))
        exact addWorklist_preserve v _ slack hinner.1 hinner.2
      · rw [if_neg hcon]
        by_cases hgb : (u ∈ precolored ∧ ∀ t ∈ adjacent v st0, okP t u st0) ∨
            u ∉ precolored ∧ conservativeP (adjacent u st0 ∪ adjacent v st0) st0
        · rw [if_pos hgb]
          have hv : v ∉ precolored := fun hvp => hcon (Or.inl hvp)
          have hcomb := combine_props u v
            { st0 with coalesced_moves := pinsert mov st0.coalesced_moves }
            slack (okInv_of_wlParts _ st rfl hok)
            (fun p hp => hdeg p hp) hv
          exact addWorklist_preserve u _ slack hcomb.1 hcomb.2
        · rw [if_neg hgb]
          refine ⟨okInv_of_wlParts _ st rfl hok, ?_⟩
          exact fun p hp => le_trans
            (Nat.add_le_add_left (Nat.le_succ slack) registerCount)
            (hdeg p hp)

/-- One main-loop iteration preserves the invariant, spending at most one
unit of precolored degree slack. -/
theorem loopStep_props (st : CState) (slack : ℕ) (hok : okInv st)
    (hdeg : degInv (slack + 1) st) :
    okInv (loopStep st) ∧ degInv slack (loopStep st) := by
  unfold loopStep
  split
  · exact simplifyS_props st slack hok hdeg
  · split
    · exact coalesceS_props st slack hok hdeg
    · split
      · exact freezeS_props st slack hok
          (degInv_mono _ _ _ (by omega) hdeg)
      · split
        · exact selectSpillS_props st slack hok
            (degInv_mono _ _ _ (by omega) hdeg)
        · exact ⟨hok, degInv_mono _ _ _ (by omega) hdeg⟩

/-- The main loop preserves the invariant for any number of iterations
covered by the slack. -/
theorem loopAlloc_props :
    ∀ (fuel : ℕ) (st : CState), okInv st → degInv fuel st →
      okInv (loopAlloc fuel st) ∧ degInv 0 (loopAlloc fuel st) := by
  intro fuel
  induction fuel with
  | zero =>
    intro st hok hdeg
    exact ⟨hok, hdeg⟩
  | succ n ih =>
    intro st hok hdeg
    unfold loopAlloc
    split
    · exact ⟨hok, degInv_mono _ _ _ (by omega) hdeg⟩
    · exact ih (loopStep st) (loopStep_props st n hok hdeg).1
        (loopStep_props st n hok hdeg).2

/-- `make_worklist` only distributes the `initial` temporaries over the
worklists and leaves all degrees alone. -/
theorem makeWorklist_props (initial : List ℕ) (st : CState)
    (hinit : ∀ t ∈ initial, t ∉ precolored) (hok : okInv st) :
    okInv (makeWorklist initial st) ∧
      (makeWorklist initial st).degree = st.degree := by
  unfold makeWorklist
  induction initial generalizing st with
  | nil => exact ⟨hok, rfl⟩
  | cons n rest ih =>
    rw [List.foldl_cons]
    have hn : n ∉ precolored := hinit n (List.mem_cons_self n rest)
    have hrest : ∀ t ∈ rest, t ∉ precolored :=
      fun t ht => hinit t (List.mem_cons_of_mem n ht)
    have hstep : okInv (if registerCount ≤ st.degree n then
          { st with spill_worklist := oinsert n st.spill_worklist }
        else if moveRelated n st then
          { st with freeze_worklist := oinsert n st.freeze_worklist }
        else
          { st with simplify_worklist := oinsert n st.simplify_worklist }) ∧
        (if registerCount ≤ st.degree n then
          { st with spill_worklist := oinsert n st.spill_worklist }
        else if moveRelated n st then
          { st with freeze_worklist := oinsert n st.freeze_worklist }
        else
          { st with simplify_worklist := oinsert n st.simplify_worklist
            }).degree = st.degree := by
      split
      · exact ⟨okInv_spillwl_oinsert st n hn hok, rfl⟩
      · split
        · exact ⟨okInv_freeze_oinsert st n hn hok, rfl⟩
        · exact ⟨okInv_simplify_oinsert st n hn hok, rfl⟩
    have := ih _ hrest hstep.1
    exact ⟨this.1, this.2.trans hstep.2⟩

theorem foldAddEdge_wlParts (t : ℕ) (l : List ℕ) (st : CState) :
    wlParts (l.foldl (fun s p => addEdge t p s) st) = wlParts st := by
  induction l generalizing st with
  | nil => rfl
  | cons p rest ih =>
    rw [List.foldl_cons]
    exact (ih (addEdge t p st)).trans (addEdge_wlParts t p st)

/-- After `build`, the invariant still holds and every precolored
temporary has degree `usize::MAX`. -/
theorem buildS_props (nodes : List IGNode) (st : CState) (hok : okInv st) :
    okInv (buildS nodes st) ∧
      ∀ p ∈ precolored, (buildS nodes st).degree p = MAXU64 := by
  unfold buildS
  dsimp only
  set st1 := nodes.foldl
    (fun s nd =>
      let s2 := nd.preds.foldl (fun s p => addEdge nd.temp p s) s
      nd.succs.foldl (fun s q => addEdge nd.temp q s) s2)
    st with hst1
  have hok1 : okInv st1 := by
    rw [hst1]
    clear hst1
    induction nodes generalizing st with
    | nil => exact hok
    | cons nd rest ih =>
      rw [List.foldl_cons]
      apply ih
      apply okInv_of_wlParts _ st _ hok
      exact (foldAddEdge_wlParts nd.temp nd.succs _).trans
        (foldAddEdge_wlParts nd.temp nd.preds st)
  -- the final loop sets every precolored degree to usize::MAX
  have hset : ∀ (l : List ℕ) (s : CState),
      wlParts (l.foldl
        (fun s p => { s with degree := updF s.degree p MAXU64 }) s) =
        wlParts s ∧
      (∀ p, p ∉ l →
        (l.foldl (fun s p => { s with degree := updF s.degree p MAXU64 })
          s).degree p = s.degree p) ∧
      (∀ p, p ∈ l → l.Nodup →
        (l.foldl (fun s p => { s with degree := updF s.degree p MAXU64 })
          s).degree p = MAXU64) := by
    intro l
    induction l with
    | nil =>
      intro s
      exact ⟨rfl, fun p _ => rfl, fun p hp _ => absurd hp (by simp)⟩
    | cons q rest ih =>
      intro s
      rw [List.foldl_cons]
      refine ⟨(ih _).1.trans rfl, ?_, ?_⟩
      · intro p hp
        have hpq : p ≠ q := fun h => hp (h ▸ List.mem_cons_self q rest)
        have hpr : p ∉ rest := fun h => hp (List.mem_cons_of_mem q h)
        rw [(ih _).2.1 p hpr]
        simp [updF, hpq]
      · intro p hp hnd
        obtain ⟨hqr, hndr⟩ := List.nodup_cons.mp hnd
        rcases List.mem_cons.mp hp with rfl | hpr
        · rw [(ih _).2.1 p hqr]
          simp [updF]
        · exact (ih _).2.2 p hpr hndr
  refine ⟨okInv_of_wlParts _ st1 (hset _ st1).1 hok1, ?_⟩
  intro p hp
  exact (hset _ st1).2.2 p ((Finset.mem_sort _).mpr hp)
    (Finset.sort_nodup _ _)

/-- The select-stack loop of `assign_colors` writes colors only at the
popped (non-precolored) temporaries, appends only popped temporaries to
`spill_nodes`, and leaves `coalesced_nodes` alone. -/
theorem assignLoop_props :
    ∀ (stack : List ℕ) (colors : ℕ → Option ℕ) (s : CState),
      (∀ t ∈ stack, t ∉ precolored) →
      (∀ t ∈ s.spill_nodes, t ∉ precolored) →
      (∀ p ∈ precolored, colors p = some p) →
      (∀ t ∈ (assignLoop stack colors s).2.spill_nodes, t ∉ precolored) ∧
        (∀ p ∈ precolored, (assignLoop stack colors s).1 p = some p) ∧
        (assignLoop stack colors s).2.coalesced_nodes = s.coalesced_nodes := by
  intro stack
  induction stack with
  | nil =>
    intro colors s _ hsp hcol
    exact ⟨hsp, hcol, rfl⟩
  | cons t rest ih =>
    intro colors s hstack hsp hcol
    have ht : t ∉ precolored := hstack t (List.mem_cons_self t rest)
    have hrest : ∀ z ∈ rest, z ∉ precolored :=
      fun z hz => hstack z (List.mem_cons_of_mem t hz)
    unfold assignLoop
    cases hc : (okColors t colors s).head? with
    | some c =>
      dsimp only
      apply ih
      · exact hrest
      · exact hsp
      · intro p hp
        have hpt : p ≠ t := fun h => ht (h ▸ hp)
        simp only [updF, if_neg hpt]
        exact hcol p hp
    | none =>
      dsimp only
      apply ih
      · exact hrest
      · intro z hz
        rcases List.mem_append.mp hz with hz2 | hz2
        · exact hsp z hz2
        · rcases List.mem_singleton.mp hz2 with rfl
          exact ht
      · exact hcol

/-- The final loop of `assign_colors` writes only at coalesced
(non-precolored) keys. -/
theorem coalescedColors_props (s : CState) :
    ∀ (l : List ℕ) (cs : ℕ → Option ℕ),
      (∀ t ∈ l, t ∉ precolored) →
      (∀ p ∈ precolored, cs p = some p) →
      ∀ p ∈ precolored,
        (l.foldl
          (fun cs node =>
            match cs (getAliasF s node) with
            | some c => updF cs node (some c)
            | none => cs) cs) p = some p := by
  intro l
  induction l with
  | nil => intro cs _ hcol; exact hcol
  | cons node rest ih =>
    intro cs hl hcol
    have hnode : node ∉ precolored := hl node (List.mem_cons_self node rest)
    rw [List.foldl_cons]
    apply ih
    · exact fun z hz => hl z (List.mem_cons_of_mem node hz)
    · intro p hp
      have hpn : p ≠ node := fun h => hnode (h ▸ hp)
      cases hm : cs (getAliasF s node) with
      | some c =>
        simp only [updF, if_neg hpn]
        exact hcol p hp
      | none => exact hcol p hp

/-- `assign_colors` on an invariant state: the spill list stays free of
precolored temporaries and the returned allocation maps every precolored
temporary to itself. -/
theorem assignColorsS_props (st : CState) (hok : okInv st) :
    (∀ t ∈ (assignColorsS st).2.spill_nodes, t ∉ precolored) ∧
      (∀ p ∈ precolored, (assignColorsS st).1 p = some p) := by
  unfold assignColorsS
  dsimp only
  have hstack : ∀ t ∈ st.select_stack.reverse, t ∉ precolored := by
    intro t ht
    exact hok.2.2.2.1 t (List.mem_reverse.mp ht)
  have hcol0 : ∀ p ∈ precolored,
      (fun t => if t ∈ precolored then some t else none) p = some p := by
    intro p hp
    simp [hp]
  have hal := assignLoop_props st.select_stack.reverse
    (fun t => if t ∈ precolored then some t else none)
    { st with select_stack := [] } hstack hok.2.2.2.2.2 hcol0
  refine ⟨hal.1, ?_⟩
  apply coalescedColors_props
  · intro t ht
    rw [hal.2.2] at ht
    exact hok.2.2.2.2.1 t ht
  · exact hal.2.1

/-- C9: throughout a run of the coloring allocator no precolored
temporary is ever inserted into `simplify_worklist`, `freeze_worklist` or
`spill_worklist`, pushed on `select_stack`, coalesced, or put in the
spill list; consequently the spill list `color` returns contains no
precolored temporary, and the returned allocation maps every precolored
temporary to itself.  The slack hypothesis reflects that `build` gives
precolored nodes degree `usize::MAX` and each loop iteration decrements
any fixed degree at most once, so no realizable number of iterations can
bring a precolored degree down to the worklist-migration threshold. -/
theorem c9_precolored_invariant (nodes : List IGNode)
    (moveList : ℕ → List (ℕ × ℕ)) (worklistMoves : List (ℕ × ℕ))
    (initial : List ℕ) (fuel : ℕ)
    (hinit : ∀ t ∈ initial, t ∉ precolored)
    (hfuel : registerCount + fuel ≤ MAXU64) :
    (∀ k ≤ fuel,
      okInv (loopAlloc k (makeWorklist initial
        (buildS nodes (initCState moveList worklistMoves))))) ∧
      (∀ t ∈ (colorMain nodes moveList worklistMoves initial fuel).2.spill_nodes,
        t ∉ precolored) ∧
      (∀ p ∈ precolored,
        (colorMain nodes moveList worklistMoves initial fuel).1 p = some p) := by
  have hok0 : okInv (initCState moveList worklistMoves) := by
    unfold okInv initCState
    simp
  have hbuild := buildS_props nodes (initCState moveList worklistMoves) hok0
  have hmk := makeWorklist_props initial _ hinit hbuild.1
  have hdeg : ∀ k ≤ fuel, degInv k
      (makeWorklist initial
        (buildS nodes (initCState moveList worklistMoves))) := by
    intro k hk p hp
    rw [hmk.2, hbuild.2 p hp]
    omega
  have hloop : ∀ k ≤ fuel,
      okInv (loopAlloc k (makeWorklist initial
        (buildS nodes (initCState moveList worklistMoves)))) :=
    fun k hk => (loopAlloc_props k _ hmk.1 (hdeg k hk)).1
  refine ⟨hloop, ?_, ?_⟩
  · exact (assignColorsS_props _ (hloop fuel (le_refl fuel))).1
  · exact (assignColorsS_props _ (hloop fuel (le_refl fuel))).2

/-- C9 witness: a two-node interference graph on the non-precolored
temporaries 20 and 21, run for 10 fuel. -/
theorem c9_precolored_invariant_witness :
    (∀ t ∈ ([20, 21] : List ℕ), t ∉ precolored) ∧
      (∀ p ∈ precolored,
        (colorMain [⟨20, [], [21]⟩, ⟨21, [20], []⟩] (fun _ => []) []
          [20, 21] 10).1 p = some p) :=
  ⟨by decide,
    (c9_precolored_invariant [⟨20, [], [21]⟩, ⟨21, [20], []⟩]
      (fun _ => []) [] [20, 21] 10 (by decide) (by decide)).2.2⟩

end Tiger
